import Mathlib

/-!
Verification of the interlinking checker (`src/interlinking.py`).

The Python source is shallowly embedded: pure string manipulation is
translated to functions on `List Char` / `String`, the network (HTTP fetch,
HTML anchor extraction, XML parsing of sitemap documents) is passed in as an
explicit environment function, and each breadth-first loop becomes explicit
state passing (a step function plus a loop).

The model of `urllib.parse.urlparse` follows CPython's `urlsplit`
(Python 3.11): the URL is left-stripped of C0-control-or-space characters,
tab / CR / LF are removed everywhere, an optional `scheme:` prefix is split
off when it starts with an ASCII letter and consists of scheme characters,
and the network location is the segment after a leading `//` up to the first
`/`, `?` or `#`.  A netloc with unbalanced square brackets raises in Python;
the code under verification catches every exception and maps it to the empty
host, which the model reproduces for the unbalanced-bracket case.  Exotic
paths that the program's inputs never exercise (non-ASCII case folding,
IPv6 bracket content validation, NFKC netloc checks) are outside the model.
-/

/-! ### Character classes and basic list utilities -/

/-- C0 control characters and space (the set `urlsplit` left-strips). -/
def isC0OrSpace (c : Char) : Bool := c.toNat ≤ 32

/-- Tab, carriage return and line feed: removed everywhere by `urlsplit`. -/
def isUnsafeUrlChar (c : Char) : Bool := c = '\t' || c = '\r' || c = '\n'

/-- Python `str.isspace` / `str.strip()` whitespace (ASCII part plus the
Unicode space characters). -/
def isPyWs (c : Char) : Bool :=
  (9 ≤ c.toNat && c.toNat ≤ 13) || (28 ≤ c.toNat && c.toNat ≤ 32) ||
  c.toNat = 0x85 || c.toNat = 0xa0 || c.toNat = 0x1680 ||
  (0x2000 ≤ c.toNat && c.toNat ≤ 0x200a) || c.toNat = 0x2028 || c.toNat = 0x2029 ||
  c.toNat = 0x202f || c.toNat = 0x205f || c.toNat = 0x3000

/-- Python `str.strip()` on a character list: drop whitespace at both ends. -/
def pyStripL (l : List Char) : List Char :=
  ((l.dropWhile isPyWs).reverse.dropWhile isPyWs).reverse

/-- Python `str.strip()`. -/
def pyStripS (s : String) : String := String.mk (pyStripL s.data)

/-- Python `str.rstrip('/')`: drop every trailing `'/'`. -/
def rstripSlashL (l : List Char) : List Char :=
  (l.reverse.dropWhile (fun c => c = '/')).reverse

/-- Python `str.rstrip('/')` on strings. -/
def rstripSlashS (s : String) : String := String.mk (rstripSlashL s.data)

/-- Python `s.split('#')[0]`: the part of the string before the first `'#'`. -/
def takeFragL (l : List Char) : List Char := l.takeWhile (fun c => c ≠ '#')

/-- Python `s.split('#')[0]` on strings. -/
def takeFragS (s : String) : String := String.mk (takeFragL s.data)

/-- Python substring test `needle in hay` on character lists. -/
def containsL (hay needle : List Char) : Bool :=
  match hay with
  | [] => needle.isEmpty
  | _ :: t => needle.isPrefixOf hay || containsL t needle

/-- Python substring test `needle in hay` on strings. -/
def strContains (hay needle : String) : Bool := containsL hay.data needle.data

/-- Order-preserving de-duplication (the `seen = set(); out = []` idiom that
the source uses both in `_filter_same_site_urls` and in
`_collect_urls_from_sitemaps`).  `seen` is the accumulator of already-kept
elements. -/
def dedupFrom (seen : List String) : List String → List String
  | [] => []
  | x :: xs => if x ∈ seen then dedupFrom seen xs else x :: dedupFrom (x :: seen) xs

/-- Order-preserving de-duplication starting from an empty seen-set. -/
def dedupKeepOrder (l : List String) : List String := dedupFrom [] l

/-! ### URL Normalizer (`_norm_netloc`, `_same_host`, `_is_http_url`) -/

/-- Preprocessing done by CPython's `urlsplit`: left-strip
C0-control-or-space, then remove tab / CR / LF everywhere. -/
def urlPrep (l : List Char) : List Char :=
  (l.dropWhile isC0OrSpace).filter (fun c => !isUnsafeUrlChar c)

/-- Characters allowed in a URL scheme (`scheme_chars` in CPython). -/
def schemeChar (c : Char) : Bool :=
  c.isAlpha || c.isDigit || c = '+' || c = '-' || c = '.'

/-- Split a leading `scheme:` from a preprocessed URL, CPython style: the
scheme must be nonempty, start with an ASCII letter, consist of scheme
characters, and be terminated by `':'`.  Returns the lowercased scheme
(or `[]`) and the remainder. -/
def schemeSplitL (l : List Char) : List Char × List Char :=
  match l.dropWhile (fun c => c ≠ ':') with
  | [] => ([], l)
  | _ :: after =>
    match l.takeWhile (fun c => c ≠ ':') with
    | [] => ([], l)
    | c :: _ =>
      if c.isAlpha && (l.takeWhile (fun c => c ≠ ':')).all schemeChar then
        ((l.takeWhile (fun c => c ≠ ':')).map Char.toLower, after)
      else ([], l)

/-- Remainder of a preprocessed URL after the optional scheme. -/
def dropSchemeL (l : List Char) : List Char := (schemeSplitL l).2

/-- Characters that terminate the netloc segment (`_splitnetloc`). -/
def stopChar (c : Char) : Bool := c = '/' || c = '?' || c = '#'

/-- Netloc of a scheme-free preprocessed URL: the segment after a leading
`//` up to the first `/`, `?` or `#`; empty when there is no `//`. -/
def netlocRaw (l : List Char) : List Char :=
  match l with
  | c1 :: c2 :: rest =>
    if c1 = '/' ∧ c2 = '/' then rest.takeWhile (fun c => !stopChar c) else []
  | _ => []

/-- Netloc of a URL string, including the unbalanced-bracket `ValueError`
(which `_norm_netloc` catches, yielding the empty host). -/
def urlNetlocL (u : List Char) : List Char :=
  let n := netlocRaw (dropSchemeL (urlPrep u))
  if (n.contains '[' != n.contains ']') then [] else n

/-- Model of `_norm_netloc`: lowercased netloc with a leading `www.`
stripped; the empty string on parse failure. -/
def normNetloc (u : String) : String :=
  let n := (urlNetlocL u.data).map Char.toLower
  String.mk (if ['w', 'w', 'w', '.'].isPrefixOf n then n.drop 4 else n)

/-- Model of `_same_host`: equality of the two normalized netlocs. -/
def sameHost (a b : String) : Bool := normNetloc a == normNetloc b

/-- Model of `_is_http_url`: after stripping, reject `mailto:`, `tel:`,
`javascript:` and pure-fragment links, accept `http://`, `https://` and
site-relative `/` links. -/
def isHttpUrl (href : String) : Bool :=
  let h := pyStripL href.data
  if h.isEmpty then false
  else if ("mailto:".data.isPrefixOf h || "tel:".data.isPrefixOf h ||
           "javascript:".data.isPrefixOf h || "#".data.isPrefixOf h) then false
  else ("http://".data.isPrefixOf h || "https://".data.isPrefixOf h ||
        "/".data.isPrefixOf h)

/-! ### `urllib.parse.urljoin` as used by the source

`get_internal_links` only joins hrefs that passed `_is_http_url`, i.e.
absolute `http(s)://` links or site-relative `/...` links, and
`_candidate_sitemap_urls` only joins absolute paths such as `/sitemap.xml`.
The model covers exactly these uses: an absolute href is returned (after
`urlsplit` preprocessing), and any other href is appended to the base's
`scheme://netloc` root (the base's scheme lowercased, as `urlsplit` does).
A base without a `//` network location resolves to the bare href. -/
def urljoinModel (base href : String) : String :=
  let h := urlPrep href.data
  if "http://".data.isPrefixOf h || "https://".data.isPrefixOf h then String.mk h
  else
    let (sch, rest) := schemeSplitL (urlPrep base.data)
    match rest with
    | '/' :: '/' :: m =>
      String.mk ((if sch.isEmpty then [] else sch ++ [':']) ++
        '/' :: '/' :: m.takeWhile (fun c => !stopChar c) ++ h)
    | _ => String.mk h

/-! ### Link Extractor (`get_internal_links`)

The network and the HTML parser are explicit environments:
`fetch url = none` models a `requests` exception (connection error,
timeout), `some (status, body)` a completed response, and
`anchors body` lists the `(href, anchor_text)` pairs that BeautifulSoup
finds in `body` (anchor text already whitespace-stripped, as
`get_text(strip=True)` returns it). -/

/-- Network environment: `none` is a transport exception, otherwise the
status code and the body text. -/
def FetchEnv : Type := String → Option (Nat × String)

/-- HTML-parsing environment: the `(href, anchor text)` pairs of a body. -/
def AnchorEnv : Type := String → List (String × String)

/-- Model of `get_internal_links`: empty on transport failure, non-200
status or empty body; otherwise every anchor whose href passes
`_is_http_url`, resolved against the page URL, fragment-stripped and kept
only when same-host with the page URL. -/
def getInternalLinks (fetch : FetchEnv) (anchors : AnchorEnv) (base : String) :
    List (String × String) :=
  match fetch base with
  | none => []
  | some (status, body) =>
    if status ≠ 200 || body = "" then []
    else
      (anchors body).filterMap (fun ha =>
        if isHttpUrl ha.1 then
          let href := takeFragS (urljoinModel base ha.1)
          if sameHost href base then some (href, ha.2) else none
        else none)

/-! ### Category Crawler (`crawl_filtered_pages`) -/

/-- Value of the `category_keywords` dict lookup: a single keyword string, a
list of keywords, or `None` (both for `"All Pages"` and for an unknown
category, since the source uses `dict.get`). -/
inductive Keywords where
  | noKw : Keywords
  | single : String → Keywords
  | multi : List String → Keywords
deriving DecidableEq

/-- Model of `category_keywords.get(selected_category)`. -/
def categoryKeywords (cat : String) : Keywords :=
  if cat = "Blog Pages" then .single "/blog"
  else if cat = "Blog Categories" then .single "/category"
  else if cat = "Product Pages" then .multi ["/product", "/products"]
  else .noKw

/-- Condition under which a dequeued page is recorded in the results
(line 87-91 of the source): the category is `"All Pages"`, or the page URL
contains one of the category keywords as a substring. -/
def recordCond (cat url : String) : Bool :=
  cat == "All Pages" ||
    (match categoryKeywords cat with
     | .multi kws => kws.any (fun kw => strContains url kw)
     | .single kw => strContains url kw
     | .noKw => false)

/-- Condition under which a discovered link is eligible for enqueueing
(the `elif` chain at lines 98-105 of the source). -/
def enqueueCond (cat link : String) : Bool :=
  if cat == "All Pages" then true
  else
    match categoryKeywords cat with
    | .multi kws => kws.any (fun kw => strContains link kw)
    | .single kw => strContains link kw
    | .noKw => false

/-- The inner `for link, _ in links` loop: append each link that is in
neither `visited` nor the current queue and that the category accepts.
The queue is threaded through, so a link appended for an earlier anchor
blocks a duplicate appearing later on the same page. -/
def enqueueLinks (cat : String) (links visited queue : List String) : List String :=
  match links with
  | [] => queue
  | l :: ls =>
    if l ∈ visited || l ∈ queue then enqueueLinks cat ls visited queue
    else if enqueueCond cat l then enqueueLinks cat ls visited (queue ++ [l])
    else enqueueLinks cat ls visited queue

/-- Crawl Frontier State of `crawl_filtered_pages`: FIFO queue, visited
set (kept as the insertion-ordered duplicate-free list of a Python set),
and the accumulated `(url, links)` results. -/
structure CrawlSt where
  queue : List String
  visited : List String
  results : List (String × List (String × String))
deriving DecidableEq

/-- Loop guard of `while queue and len(visited) < max_pages`, negated. -/
def crawlHalted (maxPages : Nat) (s : CrawlSt) : Bool :=
  s.queue.isEmpty || decide (maxPages ≤ s.visited.length)

/-- One iteration of the `crawl_filtered_pages` loop body: dequeue, skip if
visited, else mark visited, extract links, record the page when the
category accepts its URL, and enqueue acceptable unseen links.  `gl` is
`get_internal_links` with its environments applied. -/
def crawlStep (gl : String → List (String × String)) (cat : String) (s : CrawlSt) :
    CrawlSt :=
  match s.queue with
  | [] => s
  | url :: rest =>
    if url ∈ s.visited then { s with queue := rest }
    else
      let links := gl url
      { queue := enqueueLinks cat (links.map Prod.fst) (url :: s.visited) rest
        visited := url :: s.visited
        results := if recordCond cat url then s.results ++ [(url, links)] else s.results }

/-- The `while` loop of `crawl_filtered_pages`, by well-founded recursion on
(remaining page budget, queue length): each non-halted iteration either
grows `visited` (bounded by the page budget) or shortens the queue. -/
def crawlRun (gl : String → List (String × String)) (cat : String) (maxPages : Nat)
    (s : CrawlSt) : CrawlSt :=
  if h : crawlHalted maxPages s then s
  else crawlRun gl cat maxPages (crawlStep gl cat s)
termination_by (maxPages - s.visited.length, s.queue.length)
decreasing_by
  have hf : crawlHalted maxPages s = false := by simpa using h
  unfold crawlHalted at hf
  rw [Bool.or_eq_false_iff] at hf
  obtain ⟨hq, hv⟩ := hf
  rw [decide_eq_false_iff_not, Nat.not_le] at hv
  obtain ⟨url, rest, hs⟩ : ∃ url rest, s.queue = url :: rest := by
    rcases hqq : s.queue with _ | ⟨u, r⟩
    · rw [hqq] at hq; simp at hq
    · exact ⟨u, r, rfl⟩
  by_cases hmem : url ∈ s.visited
  · have hstep : crawlStep gl cat s = { s with queue := rest } := by
      unfold crawlStep; rw [hs]; simp [hmem]
    rw [hstep]
    exact Prod.Lex.right _ (by simp [hs])
  · have hstep : (crawlStep gl cat s).visited = url :: s.visited := by
      unfold crawlStep; rw [hs]; simp [hmem]
    apply Prod.Lex.left
    rw [hstep]
    simpa using Nat.sub_succ_lt_self maxPages s.visited.length hv

/-- Model of `crawl_filtered_pages`: run the loop from the stripped home
URL and return the recorded results. -/
def crawlFilteredPages (gl : String → List (String × String)) (home cat : String)
    (maxPages : Nat) : List (String × List (String × String)) :=
  (crawlRun gl cat maxPages ⟨[rstripSlashS home], [], []⟩).results

/-! ### Sitemap Resolver (`_collect_urls_from_sitemaps` and helpers) -/

/-- Sitemap-document environment, standing for `_fetch_text` +
`_read_xml_text` + `ElementTree` parsing of one sitemap URL: `none` models
any transport failure, empty/ungzippable body or XML parse error (all of
which make the loop skip the document), `some (rootTag, rawLocs)` a parsed
document with its raw root tag and the raw text of every `<loc>` element
that has text. -/
def SitemapEnv : Type := String → Option (String × List String)

/-- Tag normalization in `_parse_sitemap_xml`: lowercase, and when a
`{namespace}` prefix is present keep only the part after the first `'\x7d'`
brace. -/
def tagNorm (t : String) : String :=
  let l := t.data.map Char.toLower
  if l.contains '\x7d' then String.mk ((l.dropWhile (fun c => c ≠ '\x7d')).drop 1)
  else String.mk l

/-- Loc extraction in `_parse_sitemap_xml`: keep elements with non-empty raw
text, each stripped (`el.text.strip()`). -/
def locsOf (raw : List String) : List String :=
  (raw.filter (fun s => s ≠ "")).map pyStripS

/-- Model of `_filter_same_site_urls`: keep the URLs whose normalized host
equals the home URL's, fragment-stripped and whitespace-trimmed, then
de-duplicate preserving order. -/
def filterSameSiteUrls (urls : List String) (homeUrl : String) : List String :=
  let base := normNetloc homeUrl
  dedupKeepOrder (urls.filterMap (fun u =>
    if normNetloc u == base then some (pyStripS (takeFragS u)) else none))

/-- Model of `_candidate_sitemap_urls`: the four well-known locations joined
onto the home URL, then every robots.txt-listed sitemap not already present
(`robotsListed` stands for the network-derived result of
`_discover_sitemaps_from_robots`). -/
def candidateSitemapUrls (homeUrl : String) (robotsListed : List String) : List String :=
  let candidates := [urljoinModel homeUrl "/sitemap.xml",
                     urljoinModel homeUrl "/sitemap_index.xml",
                     urljoinModel homeUrl "/sitemap-index.xml",
                     urljoinModel homeUrl "/sitemap/sitemap.xml"]
  robotsListed.foldl (fun acc sm => if sm ∈ acc then acc else acc ++ [sm]) candidates

/-- Traversal state of the Sitemap Resolver: FIFO `to_visit` queue,
`seen_sitemaps` set (insertion-ordered duplicate-free list) and the
accumulated page URLs (`found_urls`, duplicates across documents allowed
until the final de-duplication). -/
structure SmState where
  toVisit : List String
  seen : List String
  found : List String
deriving DecidableEq

/-- One iteration of the `_collect_urls_from_sitemaps` loop body: dequeue a
sitemap URL, skip if seen, else mark seen and fetch+parse it; skip on
failure or when no `<loc>` was found; for a `sitemapindex` enqueue every
child loc not in the seen set (the queue itself is not checked); otherwise
treat it as a urlset and append the same-host filtered locs. -/
def smStep (env : SitemapEnv) (homeUrl : String) (s : SmState) : SmState :=
  match s.toVisit with
  | [] => s
  | smUrl :: rest =>
    if smUrl ∈ s.seen then { s with toVisit := rest }
    else
      let seen := smUrl :: s.seen
      match env smUrl with
      | none => { toVisit := rest, seen := seen, found := s.found }
      | some (rootTag, rawLocs) =>
        let locs := locsOf rawLocs
        if locs = [] then { toVisit := rest, seen := seen, found := s.found }
        else if tagNorm rootTag = "sitemapindex" then
          { toVisit := rest ++ locs.filter (fun c => c ∉ seen), seen := seen,
            found := s.found }
        else
          { toVisit := rest, seen := seen,
            found := s.found ++ filterSameSiteUrls locs homeUrl }

/-- The `while to_visit and len(found_urls) < visit_limit` loop.  A chain of
sitemap indexes can in principle grow the queue forever while `found_urls`
stays empty, so the loop is fuel-indexed; every theorem below holds for
every fuel value, and concrete runs use a fuel large enough to exhaust the
queue. -/
def smLoop (env : SitemapEnv) (homeUrl : String) (visitLimit : Nat) :
    Nat → SmState → SmState
  | 0, s => s
  | fuel + 1, s =>
    if s.toVisit.isEmpty || decide (visitLimit ≤ s.found.length) then s
    else smLoop env homeUrl visitLimit fuel (smStep env homeUrl s)

/-- Model of `_collect_urls_from_sitemaps`: run the loop from the candidate
list and de-duplicate the accumulated URLs preserving order. -/
def collectUrlsFromSitemaps (env : SitemapEnv) (homeUrl : String)
    (cands : List String) (visitLimit fuel : Nat) : List String :=
  dedupKeepOrder (smLoop env homeUrl visitLimit fuel ⟨cands, [], []⟩).found

/-! ### URL Discovery Orchestrator (`find_all_internal_urls`) -/

/-- Frontier state of the fallback crawl inside `find_all_internal_urls`
(`all_urls` always equals `visited`, so only queue and visited are kept). -/
structure FbState where
  queue : List String
  visited : List String
deriving DecidableEq

/-- The inner link loop of the fallback crawl: enqueue every link that is in
neither `visited` nor the current queue (no category restriction). -/
def fbEnqueue (links visited queue : List String) : List String :=
  match links with
  | [] => queue
  | l :: ls =>
    if l ∉ visited && l ∉ queue then fbEnqueue ls visited (queue ++ [l])
    else fbEnqueue ls visited queue

/-- One iteration of the fallback crawl loop in `find_all_internal_urls`. -/
def fbStep (gl : String → List (String × String)) (s : FbState) : FbState :=
  match s.queue with
  | [] => s
  | url :: rest =>
    if url ∈ s.visited then { s with queue := rest }
    else
      { queue := fbEnqueue ((gl url).map Prod.fst) (url :: s.visited) rest
        visited := url :: s.visited }

/-- Loop guard of the fallback crawl, negated. -/
def fbHalted (maxPages : Nat) (s : FbState) : Bool :=
  s.queue.isEmpty || decide (maxPages ≤ s.visited.length)

/-- The fallback crawl loop of `find_all_internal_urls`, by well-founded
recursion on (remaining page budget, queue length). -/
def fbRun (gl : String → List (String × String)) (maxPages : Nat) (s : FbState) :
    FbState :=
  if h : fbHalted maxPages s then s
  else fbRun gl maxPages (fbStep gl s)
termination_by (maxPages - s.visited.length, s.queue.length)
decreasing_by
  have hf : fbHalted maxPages s = false := by simpa using h
  unfold fbHalted at hf
  rw [Bool.or_eq_false_iff] at hf
  obtain ⟨hq, hv⟩ := hf
  rw [decide_eq_false_iff_not, Nat.not_le] at hv
  obtain ⟨url, rest, hs⟩ : ∃ url rest, s.queue = url :: rest := by
    rcases hqq : s.queue with _ | ⟨u, r⟩
    · rw [hqq] at hq; simp at hq
    · exact ⟨u, r, rfl⟩
  by_cases hmem : url ∈ s.visited
  · have hstep : fbStep gl s = { s with queue := rest } := by
      unfold fbStep; rw [hs]; simp [hmem]
    rw [hstep]
    exact Prod.Lex.right _ (by simp [hs])
  · have hstep : (fbStep gl s).visited = url :: s.visited := by
      unfold fbStep; rw [hs]; simp [hmem]
    apply Prod.Lex.left
    rw [hstep]
    simpa using Nat.sub_succ_lt_self maxPages s.visited.length hv

/-- Lexicographic code-point comparison of character lists: the order by
which Python's `sorted` compares strings. -/
def charListLe : List Char → List Char → Bool
  | [], _ => true
  | _ :: _, [] => false
  | a :: as, b :: bs =>
    if a.toNat < b.toNat then true
    else if b.toNat < a.toNat then false
    else charListLe as bs

/-- Python string comparison `a <= b` (code-point lexicographic). -/
def strLe (a b : String) : Bool := charListLe a.data b.data

/-- Insertion of a string into a sorted list (used to model Python's
`sorted`, which orders strings lexicographically by code point). -/
def insertSorted (x : String) : List String → List String
  | [] => [x]
  | y :: ys => if strLe x y then x :: y :: ys else y :: insertSorted x ys

/-- Model of Python `sorted` on a list of strings. -/
def sortStrings (l : List String) : List String := l.foldr insertSorted []

/-- Model of `find_all_internal_urls`: strip the home URL, return `[]` if
blank; prefer the sitemap pipeline and return its result when non-empty;
otherwise run the fallback crawl and return the same-site filter of the
lexicographically sorted visited set. -/
def findAllInternalUrls (smEnv : SitemapEnv) (fetch : FetchEnv) (anchors : AnchorEnv)
    (robotsListed : List String) (fuel : Nat) (homeUrl : String) (maxPages : Nat) :
    List String :=
  if pyStripS homeUrl = "" then []
  else if collectUrlsFromSitemaps smEnv (pyStripS homeUrl)
      (candidateSitemapUrls (pyStripS homeUrl) robotsListed) 30000 fuel ≠ [] then
    collectUrlsFromSitemaps smEnv (pyStripS homeUrl)
      (candidateSitemapUrls (pyStripS homeUrl) robotsListed) 30000 fuel
  else
    filterSameSiteUrls
      (sortStrings (fbRun (getInternalLinks fetch anchors) maxPages
        ⟨[rstripSlashS (pyStripS homeUrl)], []⟩).visited)
      (pyStripS homeUrl)

/-! ### Link-Match Engine (target parsing and `matches_by_target`) -/

/-- Model of the target parsing line of the UI: each piece of the split
input that is non-blank is stripped and its trailing slashes removed
(`url.strip().rstrip('/') ... if url.strip()`). -/
def parseTargetUrls (pieces : List String) : List String :=
  (pieces.filter (fun u => pyStripS u ≠ "")).map (fun u => rstripSlashS (pyStripS u))

/-- Model of `targets_set = set(t.rstrip('/') for t in target_urls)` as an
insertion-ordered duplicate-free list. -/
def targetsSetOf (targetUrls : List String) : List String :=
  dedupKeepOrder (targetUrls.map rstripSlashS)

/-- Matches appended to one target's bucket: every `(page, anchor)` such
that some crawled page `page` carries a link whose `rstrip('/')`
normalization equals the target, in crawl/extraction order. -/
def bucketFor (target : String) (crawled : List (String × List (String × String))) :
    List (String × String) :=
  crawled.flatMap (fun pl =>
    (pl.2.filter (fun la => rstripSlashS la.1 == target)).map (fun la => (pl.1, la.2)))

/-- Model of `matches_by_target`: one (initially empty) bucket per element
of the target set, filled by scanning every link of every crawled page. -/
def matchesByTarget (targetUrls : List String)
    (crawled : List (String × List (String × String))) :
    List (String × List (String × String)) :=
  (targetsSetOf targetUrls).map (fun t => (t, bucketFor t crawled))

/-! ### Auxiliary definitions for statements and concrete scenarios -/

/-- Path component of a URL as `urlparse(u).path` returns it: the remainder
after the optional scheme and netloc, truncated at the first `'?'` or `'#'`.
This is the notion of "path component" that the specification's
category-predicate description refers to; the source code itself never
extracts it (it tests the whole URL string), which is exactly what the
category-predicate theorems compare. -/
def urlPathOf (u : String) : String :=
  let rest := dropSchemeL (urlPrep u.data)
  match rest with
  | '/' :: '/' :: m =>
    String.mk ((m.dropWhile (fun c => !stopChar c)).takeWhile (fun c => c ≠ '?' && c ≠ '#'))
  | _ => String.mk (rest.takeWhile (fun c => c ≠ '?' && c ≠ '#'))

/-- URLs made of printable non-whitespace characters: no character is
C0-control-or-space and none is Python whitespace.  Every character class
that `urlsplit` preprocessing or `str.strip()` can touch is excluded, so
such strings are fixed points of both. -/
def plainUrlStr (s : String) : Bool :=
  s.data.all (fun c => 32 < c.toNat && !isPyWs c)

/-- Finite-table sitemap environment: the listed sitemap URLs resolve to
`(root tag, raw locs)`, everything else is a transport failure. -/
def smEnvOfTable (t : List (String × (String × List String))) : SitemapEnv :=
  fun u => (t.find? (fun p => p.1 == u)).map Prod.snd

/-- Sitemap environment that always fails (no sitemap tree at all). -/
def smNoneEnv : SitemapEnv := fun _ => none

/-- Fetch environment that always fails. -/
def fetchNoneEnv : FetchEnv := fun _ => none

/-- Anchor environment that never finds links. -/
def anchorsNoneEnv : AnchorEnv := fun _ => []

/-- Two-level sitemap scenario of the specification: a sitemap index with
two child urlsets of 3 unique `<loc>` entries each, one URL shared. -/
def smTableTwoLevel : List (String × (String × List String)) :=
  [("https://ex.com/sitemap.xml",
    ("sitemapindex", ["https://ex.com/s1.xml", "https://ex.com/s2.xml"])),
   ("https://ex.com/s1.xml",
    ("urlset", ["https://ex.com/p1", "https://ex.com/p2", "https://ex.com/p3"])),
   ("https://ex.com/s2.xml",
    ("urlset", ["https://ex.com/p3", "https://ex.com/p4", "https://ex.com/p5"]))]

/-- Sitemap index listing the same child sitemap twice. -/
def smTableDupChild : List (String × (String × List String)) :=
  [("https://ex.com/sitemap.xml",
    ("sitemapindex", ["https://ex.com/a.xml", "https://ex.com/a.xml"]))]

/-- Sitemap index pointing at a child sitemap on a foreign host whose urlset
carries a same-host page URL. -/
def smTableForeign : List (String × (String × List String)) :=
  [("https://ex.com/sitemap.xml",
    ("sitemapindex", ["https://evil.org/foreign.xml"])),
   ("https://evil.org/foreign.xml",
    ("urlset", ["https://ex.com/found-via-foreign"]))]

/-- Urlset whose `<loc>` has a space inside the host position, terminated by
a fragment (the home URL `https://h #x` has normalized host `"h "`). -/
def smTableWsHostA : List (String × (String × List String)) :=
  [("https://h /sitemap.xml", ("urlset", ["https://h #y"]))]

/-- Variant of `smTableWsHostA` for the home URL `https://bx #h`. -/
def smTableWsHostB : List (String × (String × List String)) :=
  [("https://bx /sitemap.xml", ("urlset", ["https://bx #k"]))]

/-- Fetch environment for the failure-absorption scenarios: one good page
whose links lead to a connection failure, a 500 status and an empty body. -/
def fetchC5 : FetchEnv := fun u =>
  if u = "https://c5.com" then some (200, "body5")
  else if u = "https://c5.com/s500" then some (500, "errorpage")
  else if u = "https://c5.com/empty" then some (200, "")
  else none

/-- Anchor environment for the failure-absorption scenarios. -/
def anchorsC5 : AnchorEnv := fun b =>
  if b = "body5" then [("/fail", "F"), ("/s500", "S"), ("/empty", "E")] else []

/-! ## Theorems -/

/-! ### Generic lemmas about the de-duplication idiom -/

theorem dedupFrom_spec (l : List String) : ∀ seen : List String,
    (dedupFrom seen l).Nodup ∧ ∀ x ∈ dedupFrom seen l, x ∈ l ∧ x ∉ seen := by
  induction l with
  | nil => intro seen; simp [dedupFrom]
  | cons x xs ih =>
    intro seen
    unfold dedupFrom
    by_cases hx : x ∈ seen
    · simp only [hx, if_true]
      obtain ⟨hnd, hmem⟩ := ih seen
      exact ⟨hnd, fun y hy => ⟨List.mem_cons_of_mem _ (hmem y hy).1, (hmem y hy).2⟩⟩
    · simp only [hx, if_false]
      obtain ⟨hnd, hmem⟩ := ih (x :: seen)
      refine ⟨List.nodup_cons.mpr ⟨fun hc => ?_, hnd⟩, fun y hy => ?_⟩
      · exact (hmem x hc).2 (List.mem_cons_self x seen)
      · rcases List.mem_cons.mp hy with h | h
        · exact ⟨by simp [h], h ▸ hx⟩
        · refine ⟨List.mem_cons_of_mem _ (hmem y h).1, fun hc => ?_⟩
          exact (hmem y h).2 (List.mem_cons_of_mem _ hc)

theorem dedupKeepOrder_nodup (l : List String) : (dedupKeepOrder l).Nodup :=
  (dedupFrom_spec l []).1

theorem dedupKeepOrder_subset (l : List String) (x : String)
    (h : x ∈ dedupKeepOrder l) : x ∈ l :=
  ((dedupFrom_spec l []).2 x h).1

theorem dedupFrom_eq_self (l : List String) : ∀ seen : List String, l.Nodup →
    (∀ x ∈ l, x ∉ seen) → dedupFrom seen l = l := by
  induction l with
  | nil => intro seen _ _; rfl
  | cons x xs ih =>
    intro seen hnd hdis
    unfold dedupFrom
    rw [if_neg (hdis x (List.mem_cons_self x xs))]
    rw [ih (x :: seen) (List.nodup_cons.mp hnd).2]
    intro y hy
    rw [List.mem_cons]
    push_neg
    exact ⟨fun he => (List.nodup_cons.mp hnd).1 (he ▸ hy),
           hdis y (List.mem_cons_of_mem _ hy)⟩

/-! ### C1: host comparison of two parse failures -/

/-- C1, counterexample: two URL strings whose host parsing fails (both
normalized hosts are empty) are reported as the *same* host by
`_same_host`, contradicting the claim that `sameHost` returns `false`
for two parse failures. -/
theorem sameHost_both_unparseable_cx :
    normNetloc "notaurl" = "" ∧ normNetloc "just text" = "" ∧
    sameHost "notaurl" "just text" = true := by
  refine ⟨by decide, by decide, by decide⟩

/-- C1, amended: whenever host parsing fails for both URL strings (both
normalized hosts are the empty string), `_same_host` returns `true` — the
code has no empty-vs-empty special case, so two parse failures are always
considered the same host. -/
theorem sameHost_of_empty_norm (a b : String)
    (ha : normNetloc a = "") (hb : normNetloc b = "") : sameHost a b = true := by
  unfold sameHost
  rw [ha, hb]
  decide

/-- Witness for `sameHost_of_empty_norm` at concrete unparseable inputs. -/
theorem sameHost_of_empty_norm_witness :
    normNetloc "nota url2" = "" ∧ normNetloc "%%%" = "" ∧
    sameHost "nota url2" "%%%" = true :=
  ⟨by decide, by decide, sameHost_of_empty_norm "nota url2" "%%%" (by decide) (by decide)⟩

/-! ### C2: the category predicate tests the whole URL string -/

/-- C2, counterexample: the URL `https://ex.com/shop?from=/blog` is accepted
for category `Blog Pages` although its path component `/shop` does not
contain `/blog` — the claimed path-component predicate disagrees with the
code on this input, because the code tests the whole URL string. -/
theorem category_path_predicate_cx :
    recordCond "Blog Pages" "https://ex.com/shop?from=/blog" = true ∧
    urlPathOf "https://ex.com/shop?from=/blog" = "/shop" ∧
    strContains (urlPathOf "https://ex.com/shop?from=/blog") "/blog" = false := by
  refine ⟨by decide, by decide, by decide⟩

/-- C2, amended: the acceptance test is a substring predicate on the *whole
URL string* (not only the path component): `/blog` for Blog Pages,
`/category` for Blog Categories, `/product` or `/products` for Product
Pages, accept-all for All Pages; and the recording condition coincides with
the enqueueing condition on every category and URL. -/
theorem category_predicate_whole_url (cat url : String) :
    recordCond cat url = enqueueCond cat url ∧
    recordCond "Blog Pages" url = strContains url "/blog" ∧
    recordCond "Blog Categories" url = strContains url "/category" ∧
    recordCond "Product Pages" url =
      (strContains url "/product" || strContains url "/products") ∧
    recordCond "All Pages" url = true := by
  refine ⟨?_, ?_, ?_, ?_, ?_⟩
  · unfold recordCond enqueueCond
    cases h : (cat == "All Pages") <;> simp [h]
  · simp [recordCond, categoryKeywords]
  · simp [recordCond, categoryKeywords]
  · simp [recordCond, categoryKeywords]
  · simp [recordCond]

/-! ### C10: unknown categories visit only the home URL -/

theorem enqueueLinks_none (cat : String) (links visited : List String)
    (h : ∀ l, enqueueCond cat l = false) : ∀ queue : List String,
    enqueueLinks cat links visited queue = queue := by
  induction links with
  | nil => intro queue; rfl
  | cons l ls ih =>
    intro queue
    rw [enqueueLinks, h l]
    split
    · exact ih queue
    · simp [ih]

/-- C10: for a `selected_category` that is none of the four known names,
`category_keywords.get` yields `None`, both the recording and the
enqueueing condition are constantly false, so the crawl dequeues the home
URL, fetches its links once, enqueues nothing, and ends with
`visited = {home}` and an empty result list. -/
theorem crawl_unknown_category (gl : String → List (String × String))
    (home cat : String) (maxPages : Nat)
    (h1 : cat ≠ "Blog Pages") (h2 : cat ≠ "Blog Categories")
    (h3 : cat ≠ "Product Pages") (h4 : cat ≠ "All Pages") (h5 : 0 < maxPages) :
    crawlRun gl cat maxPages ⟨[rstripSlashS home], [], []⟩ =
      ⟨[], [rstripSlashS home], []⟩ ∧
    crawlFilteredPages gl home cat maxPages = [] := by
  have hkw : categoryKeywords cat = .noKw := by
    unfold categoryKeywords
    rw [if_neg h1, if_neg h2, if_neg h3]
  have hcat : (cat == "All Pages") = false := by
    simp [h4]
  have hrec : ∀ u, recordCond cat u = false := by
    intro u; unfold recordCond; rw [hcat, hkw]; rfl
  have henq : ∀ l, enqueueCond cat l = false := by
    intro l; unfold enqueueCond; rw [hcat, hkw]; rfl
  have hstep : crawlStep gl cat ⟨[rstripSlashS home], [], []⟩ =
      ⟨[], [rstripSlashS home], []⟩ := by
    unfold crawlStep
    simp [hrec, enqueueLinks_none cat _ _ henq]
  have hh1 : crawlHalted maxPages ⟨[rstripSlashS home], [], []⟩ = false := by
    unfold crawlHalted
    simp only [List.isEmpty_cons, Bool.false_or, decide_eq_false_iff_not, Nat.not_le,
      List.length_nil]
    exact h5
  have hmain : crawlRun gl cat maxPages ⟨[rstripSlashS home], [], []⟩ =
      ⟨[], [rstripSlashS home], []⟩ := by
    rw [crawlRun, hh1]
    simp only [Bool.false_eq_true, if_false, hstep]
    rw [crawlRun]
    simp [crawlHalted]
  refine ⟨hmain, ?_⟩
  unfold crawlFilteredPages
  rw [hmain]

/-- Witness for `crawl_unknown_category` at a concrete unknown category. -/
theorem crawl_unknown_category_witness :
    crawlFilteredPages (getInternalLinks fetchC5 anchorsC5) "https://c5.com"
      "Nonsense" 300 = [] :=
  (crawl_unknown_category (getInternalLinks fetchC5 anchorsC5) "https://c5.com"
    "Nonsense" 300 (by decide) (by decide) (by decide) (by decide) (by decide)).2

/-! ### C4: termination, monotone visited set, page budget -/

theorem crawlStep_visited_suffix (gl : String → List (String × String))
    (cat : String) (s : CrawlSt) :
    s.visited.IsSuffix (crawlStep gl cat s).visited := by
  unfold crawlStep
  split
  · exact List.suffix_refl _
  · split
    · exact List.suffix_refl _
    · exact List.suffix_cons _ _

theorem crawlStep_visited_cases (gl : String → List (String × String))
    (cat : String) (s : CrawlSt) :
    (crawlStep gl cat s).visited = s.visited ∨
    (crawlStep gl cat s).visited.length = s.visited.length + 1 := by
  unfold crawlStep
  split
  · exact Or.inl rfl
  · split
    · exact Or.inl rfl
    · exact Or.inr (by simp)

/-- C4: for every environment, home URL, category and page budget the crawl
loop terminates (some number of steps reaches a halted state); the visited
set only ever grows along the run (the pre-state's visited list is a suffix
of the final one, so its size is non-decreasing); and starting from the
empty visited set the final visited size never exceeds the page budget. -/
theorem crawl_terminates_monotone_bounded (gl : String → List (String × String))
    (cat : String) (maxPages : Nat) :
    (∀ s : CrawlSt, ∃ n : Nat, crawlHalted maxPages ((crawlStep gl cat)^[n] s) = true) ∧
    (∀ s : CrawlSt, s.visited.IsSuffix (crawlRun gl cat maxPages s).visited) ∧
    (∀ s : CrawlSt, s.visited.length ≤ (crawlRun gl cat maxPages s).visited.length) ∧
    (∀ s : CrawlSt,
      (crawlRun gl cat maxPages s).visited.length ≤ max s.visited.length maxPages) ∧
    (∀ home : String,
      (crawlRun gl cat maxPages ⟨[rstripSlashS home], [], []⟩).visited.length ≤ maxPages) := by
  have hterm : ∀ s : CrawlSt,
      ∃ n : Nat, crawlHalted maxPages ((crawlStep gl cat)^[n] s) = true := by
    intro s
    induction s using crawlRun.induct gl cat maxPages with
    | case1 s hs => exact ⟨0, hs⟩
    | case2 s hs ih =>
      obtain ⟨n, hn⟩ := ih
      exact ⟨n + 1, by rw [Function.iterate_succ_apply]; exact hn⟩
  have hsuf : ∀ s : CrawlSt, s.visited.IsSuffix (crawlRun gl cat maxPages s).visited := by
    intro s
    induction s using crawlRun.induct gl cat maxPages with
    | case1 s hs => rw [crawlRun, hs]; simp
    | case2 s hs ih =>
      have hf : crawlHalted maxPages s = false := by simpa using hs
      rw [crawlRun, hf]
      simp only [Bool.false_eq_true, if_false]
      exact (crawlStep_visited_suffix gl cat s).trans ih
  have hbound : ∀ s : CrawlSt,
      (crawlRun gl cat maxPages s).visited.length ≤ max s.visited.length maxPages := by
    intro s
    induction s using crawlRun.induct gl cat maxPages with
    | case1 s hs => rw [crawlRun, hs]; simp
    | case2 s hs ih =>
      have hf : crawlHalted maxPages s = false := by simpa using hs
      have hlt : s.visited.length < maxPages := by
        unfold crawlHalted at hf
        rw [Bool.or_eq_false_iff] at hf
        have h2 := hf.2
        rwa [decide_eq_false_iff_not, Nat.not_le] at h2
      rw [crawlRun, hf]
      simp only [Bool.false_eq_true, if_false]
      refine le_trans ih ?_
      rcases crawlStep_visited_cases gl cat s with h | h
      · rw [h]
      · rw [h]
        omega
  refine ⟨hterm, hsuf, fun s => (hsuf s).length_le, hbound, fun home => ?_⟩
  have := hbound ⟨[rstripSlashS home], [], []⟩
  simpa using this

/-! ### C3: frontier invariants of the two traversals -/

theorem enqueueLinks_inv (cat : String) (links visited : List String) :
    ∀ queue : List String, queue.Nodup → (∀ u ∈ queue, u ∉ visited) →
    (enqueueLinks cat links visited queue).Nodup ∧
    (∀ u ∈ enqueueLinks cat links visited queue, u ∉ visited) := by
  induction links with
  | nil => intro q h1 h2; exact ⟨h1, h2⟩
  | cons l ls ih =>
    intro q h1 h2
    rw [enqueueLinks]
    by_cases hm : l ∈ visited ∨ l ∈ q
    · have : (decide (l ∈ visited) || decide (l ∈ q)) = true := by
        rcases hm with h | h <;> simp [h]
      rw [this]
      simp only [if_true]
      exact ih q h1 h2
    · push_neg at hm
      have : (decide (l ∈ visited) || decide (l ∈ q)) = false := by
        simp [hm.1, hm.2]
      rw [this]
      simp only [Bool.false_eq_true, if_false]
      split
      · refine ih (q ++ [l]) ?_ ?_
        · simp [List.nodup_append, h1, hm.2]
        · intro u hu
          rcases List.mem_append.mp hu with h | h
          · exact h2 u h
          · rw [List.mem_singleton.mp h]; exact hm.1
      · exact ih q h1 h2

theorem crawlStep_inv (gl : String → List (String × String)) (cat : String)
    (s : CrawlSt) (h1 : s.queue.Nodup) (h2 : ∀ u ∈ s.queue, u ∉ s.visited)
    (h3 : s.visited.Nodup) :
    (crawlStep gl cat s).queue.Nodup ∧
    (∀ u ∈ (crawlStep gl cat s).queue, u ∉ (crawlStep gl cat s).visited) ∧
    (crawlStep gl cat s).visited.Nodup := by
  unfold crawlStep
  rcases hq : s.queue with _ | ⟨url, rest⟩
  · exact ⟨by rw [hq] at h1 ⊢; exact h1, by rw [hq] at h2 ⊢; exact h2, h3⟩
  · rw [hq] at h1 h2
    by_cases hmem : url ∈ s.visited
    · simp only [hmem, if_true]
      exact ⟨(List.nodup_cons.mp h1).2,
        fun u hu => h2 u (List.mem_cons_of_mem _ hu), h3⟩
    · simp only [hmem, if_false]
      have hrest1 : rest.Nodup := (List.nodup_cons.mp h1).2
      have hrest2 : ∀ u ∈ rest, u ∉ url :: s.visited := by
        intro u hu
        rw [List.mem_cons]
        push_neg
        refine ⟨fun he => (List.nodup_cons.mp h1).1 (he ▸ hu), ?_⟩
        exact h2 u (List.mem_cons_of_mem _ hu)
      obtain ⟨ha, hb⟩ := enqueueLinks_inv cat ((gl url).map Prod.fst)
        (url :: s.visited) rest hrest1 hrest2
      exact ⟨ha, hb, List.nodup_cons.mpr ⟨hmem, h3⟩⟩

theorem smStep_seen_nodup (env : SitemapEnv) (homeUrl : String) (s : SmState)
    (h : s.seen.Nodup) : (smStep env homeUrl s).seen.Nodup := by
  unfold smStep
  rcases hq : s.toVisit with _ | ⟨sm, rest⟩
  · exact h
  · by_cases hm : sm ∈ s.seen
    · simp only [hm, if_true]
      exact h
    · simp only [hm, if_false]
      have hcons : (sm :: s.seen).Nodup := List.nodup_cons.mpr ⟨hm, h⟩
      rcases env sm with _ | ⟨tag, raws⟩
      · exact hcons
      · dsimp only
        split
        · exact hcons
        · split
          · exact hcons
          · exact hcons

theorem smLoop_seen_nodup (env : SitemapEnv) (homeUrl : String)
    (visitLimit : Nat) : ∀ fuel : Nat, ∀ s : SmState, s.seen.Nodup →
    (smLoop env homeUrl visitLimit fuel s).seen.Nodup := by
  intro fuel
  induction fuel with
  | zero => intro s h; exact h
  | succ n ih =>
    intro s h
    rw [smLoop]
    split
    · exact h
    · exact ih _ (smStep_seen_nodup env homeUrl s h)

/-- C3, counterexample: processing a sitemap index that lists the same
child sitemap twice enqueues that child twice while it is unvisited — the
Sitemap Resolver checks candidates only against the seen set, never against
the queue, so the claimed both-checks invariant fails for it. -/
theorem sitemap_enqueue_duplicate_cx :
    (smStep (smEnvOfTable smTableDupChild) "https://ex.com"
      ⟨candidateSitemapUrls "https://ex.com" [], [], []⟩).toVisit =
      ["https://ex.com/sitemap_index.xml", "https://ex.com/sitemap-index.xml",
       "https://ex.com/sitemap/sitemap.xml", "https://ex.com/a.xml",
       "https://ex.com/a.xml"] ∧
    ¬ (smStep (smEnvOfTable smTableDupChild) "https://ex.com"
      ⟨candidateSitemapUrls "https://ex.com" [], [], []⟩).toVisit.Nodup := by
  refine ⟨by decide, by decide⟩

/-- C3, amended: in the Category Crawler the queue stays duplicate-free and
disjoint from the visited set (a URL is never enqueued twice while
unvisited, being checked against both), and no URL is ever visited twice;
in the Sitemap Resolver no sitemap URL is ever added to the seen set twice,
but — as the counterexample shows — a child sitemap may be enqueued twice
while unvisited, because only the seen set is checked before enqueueing. -/
theorem frontier_invariants (gl : String → List (String × String)) (cat : String)
    (maxPages : Nat) (env : SitemapEnv) (homeUrl : String) :
    (∀ s : CrawlSt, s.queue.Nodup → (∀ u ∈ s.queue, u ∉ s.visited) →
      s.visited.Nodup →
      (crawlStep gl cat s).queue.Nodup ∧
      (∀ u ∈ (crawlStep gl cat s).queue, u ∉ (crawlStep gl cat s).visited) ∧
      (crawlStep gl cat s).visited.Nodup) ∧
    (∀ s : CrawlSt, s.queue.Nodup → (∀ u ∈ s.queue, u ∉ s.visited) →
      s.visited.Nodup → (crawlRun gl cat maxPages s).visited.Nodup) ∧
    (∀ home : String,
      (crawlRun gl cat maxPages ⟨[rstripSlashS home], [], []⟩).visited.Nodup) ∧
    (∀ s : SmState, s.seen.Nodup → (smStep env homeUrl s).seen.Nodup) ∧
    (∀ visitLimit fuel : Nat, ∀ s : SmState, s.seen.Nodup →
      (smLoop env homeUrl visitLimit fuel s).seen.Nodup) := by
  have hrun : ∀ s : CrawlSt, s.queue.Nodup → (∀ u ∈ s.queue, u ∉ s.visited) →
      s.visited.Nodup → (crawlRun gl cat maxPages s).visited.Nodup := by
    intro s
    induction s using crawlRun.induct gl cat maxPages with
    | case1 s hs =>
      intro _ _ h3
      rw [crawlRun, hs]
      simpa using h3
    | case2 s hs ih =>
      intro h1 h2 h3
      have hf : crawlHalted maxPages s = false := by simpa using hs
      rw [crawlRun, hf]
      simp only [Bool.false_eq_true, if_false]
      obtain ⟨ha, hb, hc⟩ := crawlStep_inv gl cat s h1 h2 h3
      exact ih ha hb hc
  refine ⟨fun s => crawlStep_inv gl cat s, hrun, ?_, smStep_seen_nodup env homeUrl,
    fun visitLimit fuel => smLoop_seen_nodup env homeUrl visitLimit fuel⟩
  intro home
  exact hrun ⟨[rstripSlashS home], [], []⟩ (by simp) (by simp) (by simp)

/-- Witness for `frontier_invariants`: the invariants applied at concrete
states of both traversals, with every hypothesis discharged. -/
theorem frontier_invariants_witness :
    ((crawlStep (getInternalLinks fetchC5 anchorsC5) "All Pages"
      ⟨["https://c5.com"], [], []⟩).queue.Nodup) ∧
    ((crawlRun (getInternalLinks fetchC5 anchorsC5) "All Pages" 300
      ⟨[rstripSlashS "https://c5.com"], [], []⟩).visited.Nodup) ∧
    ((smLoop (smEnvOfTable smTableTwoLevel) "https://ex.com" 30000 50
      ⟨candidateSitemapUrls "https://ex.com" [], [], []⟩).seen.Nodup) := by
  refine ⟨?_, ?_, ?_⟩
  · exact ((frontier_invariants (getInternalLinks fetchC5 anchorsC5) "All Pages" 300
      (smEnvOfTable smTableTwoLevel) "https://ex.com").1
      ⟨["https://c5.com"], [], []⟩ (by decide) (by decide) (by decide)).1
  · exact (frontier_invariants (getInternalLinks fetchC5 anchorsC5) "All Pages" 300
      (smEnvOfTable smTableTwoLevel) "https://ex.com").2.2.1 "https://c5.com"
  · exact (frontier_invariants (getInternalLinks fetchC5 anchorsC5) "All Pages" 300
      (smEnvOfTable smTableTwoLevel) "https://ex.com").2.2.2.2 30000 50
      ⟨candidateSitemapUrls "https://ex.com" [], [], []⟩ (by decide)

/-! ### C5: transport failures are absorbed -/

/-- C5: `get_internal_links` returns the empty list whenever the fetch
raises (`none`), returns a non-200 status, or returns an empty body — the
model is a total function, mirroring that the Python `try/except` lets no
exception escape to the caller; and a dequeued page whose link extraction
came back empty is still marked visited, contributes an empty link list to
the results when the category accepts it, and the crawl continues with the
remaining frontier unchanged. -/
theorem get_internal_links_failure_absorbed (fetch : FetchEnv) (anchors : AnchorEnv)
    (url : String) (gl : String → List (String × String)) (cat : String)
    (queue visited : List String)
    (results : List (String × List (String × String))) :
    (fetch url = none → getInternalLinks fetch anchors url = []) ∧
    (∀ status body, fetch url = some (status, body) → status ≠ 200 →
      getInternalLinks fetch anchors url = []) ∧
    (∀ status, fetch url = some (status, "") →
      getInternalLinks fetch anchors url = []) ∧
    (url ∉ visited → gl url = [] →
      crawlStep gl cat ⟨url :: queue, visited, results⟩ =
        ⟨queue, url :: visited,
         if recordCond cat url then results ++ [(url, [])] else results⟩) := by
  refine ⟨?_, ?_, ?_, ?_⟩
  · intro h
    unfold getInternalLinks
    rw [h]
  · intro status body h hst
    unfold getInternalLinks
    rw [h]
    simp [hst]
  · intro status h
    unfold getInternalLinks
    rw [h]
    simp
  · intro hmem hgl
    unfold crawlStep
    simp only [hmem, if_false, hgl]
    rfl

/-- Witness for `get_internal_links_failure_absorbed`: a connection
failure, a 500 status and an empty body each yield an empty link list, and
the crawl steps past the failing page. -/
theorem get_internal_links_failure_absorbed_witness :
    getInternalLinks fetchC5 anchorsC5 "https://c5.com/fail" = [] ∧
    getInternalLinks fetchC5 anchorsC5 "https://c5.com/s500" = [] ∧
    getInternalLinks fetchC5 anchorsC5 "https://c5.com/empty" = [] ∧
    crawlStep (getInternalLinks fetchC5 anchorsC5) "All Pages"
      ⟨["https://c5.com/fail", "https://c5.com/next"], ["https://c5.com"], []⟩ =
      ⟨["https://c5.com/next"], ["https://c5.com/fail", "https://c5.com"],
       [("https://c5.com/fail", [])]⟩ := by
  refine ⟨?_, ?_, ?_, ?_⟩
  · exact (get_internal_links_failure_absorbed fetchC5 anchorsC5 "https://c5.com/fail"
      anchorsC5 "All Pages" [] [] []).1 rfl
  · exact (get_internal_links_failure_absorbed fetchC5 anchorsC5 "https://c5.com/s500"
      anchorsC5 "All Pages" [] [] []).2.1 500 "errorpage" rfl (by decide)
  · exact (get_internal_links_failure_absorbed fetchC5 anchorsC5 "https://c5.com/empty"
      anchorsC5 "All Pages" [] [] []).2.2.1 200 rfl
  · have h := (get_internal_links_failure_absorbed fetchC5 anchorsC5 "https://c5.com/fail"
      (getInternalLinks fetchC5 anchorsC5) "All Pages" ["https://c5.com/next"]
      ["https://c5.com"] []).2.2.2 (by decide) (by decide)
    rw [h]
    decide

/-! ### Host preservation under fragment stripping and trimming

The same-site filter keeps a URL `u` because `_norm_netloc u` matches the
home host, but appends the cleaned string `u.split('#')[0].strip()`.  The
following lemmas show that for URLs made of printable non-whitespace
characters the cleaning does not change the normalized host. -/

theorem takeWhile_append_all {α : Type} (p : α → Bool) (xs ys : List α)
    (h : ∀ c ∈ xs, p c = true) :
    (xs ++ ys).takeWhile p = xs ++ ys.takeWhile p := by
  induction xs with
  | nil => simp
  | cons c t ih =>
    rw [List.cons_append, List.takeWhile_cons, h c (List.mem_cons_self c t)]
    rw [ih (fun x hx => h x (List.mem_cons_of_mem _ hx))]
    rfl

theorem dropWhile_append_all {α : Type} (p : α → Bool) (xs ys : List α)
    (h : ∀ c ∈ xs, p c = true) :
    (xs ++ ys).dropWhile p = ys.dropWhile p := by
  induction xs with
  | nil => simp
  | cons c t ih =>
    rw [List.cons_append, List.dropWhile_cons, h c (List.mem_cons_self c t)]
    exact ih (fun x hx => h x (List.mem_cons_of_mem _ hx))

theorem takeWhile_append_stop {α : Type} (p : α → Bool) (xs ys : List α)
    (h : ∃ c ∈ xs, p c = false) :
    (xs ++ ys).takeWhile p = xs.takeWhile p := by
  induction xs with
  | nil => obtain ⟨c, hc, _⟩ := h; simp at hc
  | cons c t ih =>
    by_cases hc : p c = true
    · rw [List.cons_append, List.takeWhile_cons, hc, List.takeWhile_cons, hc]
      obtain ⟨d, hd, hdp⟩ := h
      rcases List.mem_cons.mp hd with he | he
      · rw [he] at hdp; rw [hdp] at hc; exact absurd hc (by simp)
      · rw [ih ⟨d, he, hdp⟩]
    · rw [Bool.not_eq_true] at hc
      rw [List.cons_append, List.takeWhile_cons, hc, List.takeWhile_cons, hc]
      rfl

theorem dropWhile_cons_head {α : Type} (p : α → Bool) (l : List α) (x : α)
    (a : List α) (h : l.dropWhile p = x :: a) : p x = false := by
  induction l with
  | nil => simp at h
  | cons c t ih =>
    rw [List.dropWhile_cons] at h
    by_cases hc : p c = true
    · rw [hc] at h
      simp only [if_true] at h
      exact ih h
    · rw [Bool.not_eq_true] at hc
      rw [hc] at h
      simp only [Bool.false_eq_true, if_false] at h
      obtain ⟨he, _⟩ := List.cons.inj h
      rw [← he]; exact hc

theorem takeWhile_stop_takeFrag (l : List Char) :
    (takeFragL l).takeWhile (fun c => !stopChar c) =
      l.takeWhile (fun c => !stopChar c) := by
  induction l with
  | nil => rfl
  | cons c t ih =>
    by_cases hc : c = '#'
    · subst hc
      have h1 : takeFragL ('#' :: t) = [] := by
        unfold takeFragL; rw [List.takeWhile_cons]; simp
      rw [h1]
      have h2 : stopChar '#' = true := by decide
      rw [List.takeWhile_cons, h2]
      rfl
    · have h1 : takeFragL (c :: t) = c :: takeFragL t := by
        unfold takeFragL; rw [List.takeWhile_cons]; simp [hc]
      rw [h1]
      by_cases hs : stopChar c = true
      · rw [List.takeWhile_cons, List.takeWhile_cons, hs]
        rfl
      · rw [Bool.not_eq_true] at hs
        rw [List.takeWhile_cons, List.takeWhile_cons, hs]
        simp only [Bool.not_false, if_true]
        rw [ih]

theorem netlocRaw_takeFrag (l : List Char) :
    netlocRaw (takeFragL l) = netlocRaw l := by
  rcases l with _ | ⟨c1, _ | ⟨c2, t⟩⟩
  · rfl
  · by_cases h : c1 = '#'
    · subst h; rfl
    · have : takeFragL [c1] = [c1] := by simp [takeFragL, h]
      rw [this]
  · by_cases h1 : c1 = '#'
    · subst h1
      have ht : takeFragL ('#' :: c2 :: t) = [] := by simp [takeFragL]
      rw [ht]
      simp [netlocRaw]
    · by_cases h2 : c2 = '#'
      · subst h2
        have ht : takeFragL (c1 :: '#' :: t) = [c1] := by simp [takeFragL, h1]
        rw [ht]
        simp [netlocRaw]
      · have ht : takeFragL (c1 :: c2 :: t) = c1 :: c2 :: takeFragL t := by
          simp [takeFragL, h1, h2]
        rw [ht]
        by_cases hs : c1 = '/' ∧ c2 = '/'
        · simp only [netlocRaw, if_pos hs]
          exact takeWhile_stop_takeFrag t
        · simp only [netlocRaw, if_neg hs]

theorem dropWhile_all_nil {α : Type} (p : α → Bool) (l : List α)
    (h : ∀ c ∈ l, p c = true) : l.dropWhile p = [] := by
  induction l with
  | nil => rfl
  | cons c t ih =>
    rw [List.dropWhile_cons, h c (List.mem_cons_self c t)]
    simp only [if_true]
    exact ih (fun x hx => h x (List.mem_cons_of_mem _ hx))

theorem dropWhile_eq_self_all {α : Type} (p : α → Bool) (l : List α)
    (h : ∀ c ∈ l, p c = false) : l.dropWhile p = l := by
  cases l with
  | nil => rfl
  | cons c t =>
    rw [List.dropWhile_cons, h c (List.mem_cons_self c t)]
    simp

theorem schemeSplitL_no_colon (l : List Char)
    (hr : l.dropWhile (fun c => c ≠ ':') = []) : schemeSplitL l = ([], l) := by
  unfold schemeSplitL
  rw [hr]

theorem schemeSplitL_empty_scheme (l : List Char) (x : Char) (a : List Char)
    (hr : l.dropWhile (fun c => c ≠ ':') = x :: a)
    (hb : l.takeWhile (fun c => c ≠ ':') = []) : schemeSplitL l = ([], l) := by
  unfold schemeSplitL
  rw [hr, hb]

theorem schemeSplitL_valid (l : List Char) (x c : Char) (a bs : List Char)
    (hr : l.dropWhile (fun ch => ch ≠ ':') = x :: a)
    (hb : l.takeWhile (fun ch => ch ≠ ':') = c :: bs)
    (hv : (c.isAlpha && (c :: bs).all schemeChar) = true) :
    schemeSplitL l = ((c :: bs).map Char.toLower, a) := by
  unfold schemeSplitL
  rw [hr, hb]
  simp only [hv, if_true]

theorem schemeSplitL_invalid (l : List Char) (x c : Char) (a bs : List Char)
    (hr : l.dropWhile (fun ch => ch ≠ ':') = x :: a)
    (hb : l.takeWhile (fun ch => ch ≠ ':') = c :: bs)
    (hv : (c.isAlpha && (c :: bs).all schemeChar) = false) :
    schemeSplitL l = ([], l) := by
  unfold schemeSplitL
  rw [hr, hb]
  simp only [hv, Bool.false_eq_true, if_false]

theorem dropScheme_takeFrag_cases (l : List Char) :
    dropSchemeL (takeFragL l) = takeFragL (dropSchemeL l) ∨
    (dropSchemeL (takeFragL l) = takeFragL l ∧ dropSchemeL l = l) := by
  rcases hr : l.dropWhile (fun c => c ≠ ':') with _ | ⟨x, a⟩
  · -- no colon anywhere in `l`, hence none in its fragment-stripped prefix
    right
    have hall : ∀ c ∈ l, (decide (c ≠ ':')) = true := by
      intro c hc
      by_contra hne
      have hcol : c = ':' := by simpa using hne
      subst hcol
      have htw := List.takeWhile_append_dropWhile (p := fun c => decide (c ≠ ':')) (l := l)
      rw [hr, List.append_nil] at htw
      have hmm : ':' ∈ l.takeWhile (fun c => decide (c ≠ ':')) := by rw [htw]; exact hc
      have := List.mem_takeWhile_imp hmm
      simp at this
    have hfrag : ∀ c ∈ takeFragL l, (decide (c ≠ ':')) = true :=
      fun c hc => hall c ((List.takeWhile_sublist _).subset hc)
    constructor
    · exact congrArg Prod.snd (schemeSplitL_no_colon _ (dropWhile_all_nil _ _ hfrag))
    · exact congrArg Prod.snd (schemeSplitL_no_colon _ hr)
  · have hx : x = ':' := by
      have := dropWhile_cons_head _ _ _ _ hr
      simpa using this
    subst hx
    have hl : l = l.takeWhile (fun c => c ≠ ':') ++ ':' :: a := by
      conv_lhs => rw [← List.takeWhile_append_dropWhile
        (p := fun c => decide (c ≠ ':')) (l := l)]
      rw [hr]
    have hbnc : ∀ c ∈ l.takeWhile (fun ch => ch ≠ ':'), (decide (c ≠ ':')) = true := by
      intro c hc
      simpa using List.mem_takeWhile_imp hc
    rcases hb : l.takeWhile (fun ch => ch ≠ ':') with _ | ⟨c, bs⟩
    · -- empty scheme candidate: `l` starts with `':'`
      right
      rw [hb] at hl
      simp only [List.nil_append] at hl
      have hf : takeFragL l = ':' :: takeFragL a := by
        rw [hl]; simp [takeFragL]
      have hfr : (takeFragL l).dropWhile (fun c => c ≠ ':') = ':' :: takeFragL a := by
        rw [hf, List.dropWhile_cons]; simp
      have hfb : (takeFragL l).takeWhile (fun c => c ≠ ':') = [] := by
        rw [hf, List.takeWhile_cons]; simp
      constructor
      · exact congrArg Prod.snd (schemeSplitL_empty_scheme _ _ _ hfr hfb)
      · exact congrArg Prod.snd (schemeSplitL_empty_scheme _ _ _ hr hb)
    · have hbnc2 : ∀ ch ∈ c :: bs, (decide (ch ≠ ':')) = true := by
        intro ch hch
        exact hbnc ch (by rw [hb]; exact hch)
      by_cases hv : (c.isAlpha && (c :: bs).all schemeChar) = true
      · -- a valid scheme: it survives fragment stripping unchanged
        left
        have hnohash : ∀ ch ∈ c :: bs, (decide (ch ≠ '#')) = true := by
          intro ch hch
          have hv2 : ((c :: bs).all schemeChar) = true := by
            simp only [Bool.and_eq_true] at hv
            exact hv.2
          have hsc : schemeChar ch = true := List.all_eq_true.mp hv2 ch hch
          by_contra hne
          have : ch = '#' := by simpa using hne
          subst this
          exact absurd hsc (by decide)
        have hf : takeFragL l = (c :: bs) ++ ':' :: takeFragL a := by
          conv_lhs => rw [hl, hb]
          unfold takeFragL
          rw [takeWhile_append_all _ _ _ hnohash, List.takeWhile_cons]
          simp [takeFragL]
        have hfr : (takeFragL l).dropWhile (fun ch => ch ≠ ':') = ':' :: takeFragL a := by
          rw [hf, dropWhile_append_all _ _ _ hbnc2]
          rw [List.dropWhile_cons]
          simp
        have hfb : (takeFragL l).takeWhile (fun ch => ch ≠ ':') = c :: bs := by
          rw [hf, takeWhile_append_all _ _ _ hbnc2]
          rw [List.takeWhile_cons]
          simp
        have h1 : dropSchemeL (takeFragL l) = takeFragL a :=
          congrArg Prod.snd (schemeSplitL_valid _ _ _ _ _ hfr hfb hv)
        have h2 : dropSchemeL l = a :=
          congrArg Prod.snd (schemeSplitL_valid _ _ _ _ _ hr hb hv)
        rw [h1, h2]
      · -- invalid scheme candidate: neither side splits a scheme off
        right
        have hv' : (c.isAlpha && (c :: bs).all schemeChar) = false := by
          simpa using hv
        refine ⟨?_, congrArg Prod.snd (schemeSplitL_invalid _ _ _ _ _ hr hb hv')⟩
        by_cases hhash : ∀ ch ∈ c :: bs, (decide (ch ≠ '#')) = true
        · have hf : takeFragL l = (c :: bs) ++ ':' :: takeFragL a := by
            conv_lhs => rw [hl, hb]
            unfold takeFragL
            rw [takeWhile_append_all _ _ _ hhash, List.takeWhile_cons]
            simp [takeFragL]
          have hfr : (takeFragL l).dropWhile (fun ch => ch ≠ ':') = ':' :: takeFragL a := by
            rw [hf, dropWhile_append_all _ _ _ hbnc2]
            rw [List.dropWhile_cons]
            simp
          have hfb : (takeFragL l).takeWhile (fun ch => ch ≠ ':') = c :: bs := by
            rw [hf, takeWhile_append_all _ _ _ hbnc2]
            rw [List.takeWhile_cons]
            simp
          exact congrArg Prod.snd (schemeSplitL_invalid _ _ _ _ _ hfr hfb hv')
        · have hex : ∃ ch ∈ c :: bs, (decide (ch ≠ '#')) = false := by
            by_contra hc
            push_neg at hc
            exact hhash (fun ch hch => by
              have := hc ch hch
              simpa using eq_true_of_ne_false this)
          have hf : takeFragL l = (c :: bs).takeWhile (fun ch => ch ≠ '#') := by
            conv_lhs => rw [hl, hb]
            unfold takeFragL
            rw [takeWhile_append_stop _ _ _ hex]
          have hfr : (takeFragL l).dropWhile (fun ch => ch ≠ ':') = [] := by
            rw [hf]
            refine dropWhile_all_nil _ _ (fun ch hch => ?_)
            exact hbnc2 ch ((List.takeWhile_sublist _).subset hch)
          exact congrArg Prod.snd (schemeSplitL_no_colon _ hfr)

theorem netlocRaw_dropScheme_takeFrag (l : List Char) :
    netlocRaw (dropSchemeL (takeFragL l)) = netlocRaw (dropSchemeL l) := by
  rcases dropScheme_takeFrag_cases l with h | ⟨h1, h2⟩
  · rw [h, netlocRaw_takeFrag]
  · rw [h1, h2, netlocRaw_takeFrag]

theorem pyStripL_of_plain (l : List Char) (h : ∀ c ∈ l, isPyWs c = false) :
    pyStripL l = l := by
  unfold pyStripL
  rw [dropWhile_eq_self_all _ _ h]
  rw [dropWhile_eq_self_all _ _ (fun c hc => h c (List.mem_reverse.mp hc))]
  exact List.reverse_reverse l

theorem urlPrep_of_plain (l : List Char) (h : ∀ c ∈ l, 32 < c.toNat) :
    urlPrep l = l := by
  unfold urlPrep
  have h1 : ∀ c ∈ l, isC0OrSpace c = false := by
    intro c hc
    unfold isC0OrSpace
    rw [decide_eq_false_iff_not, Nat.not_le]
    exact h c hc
  rw [dropWhile_eq_self_all _ _ h1]
  refine List.filter_eq_self.mpr (fun c hc => ?_)
  have hcc := h c hc
  unfold isUnsafeUrlChar
  have h2 : c ≠ '\t' := fun he => by subst he; exact absurd hcc (by decide)
  have h3 : c ≠ '\r' := fun he => by subst he; exact absurd hcc (by decide)
  have h4 : c ≠ '\n' := fun he => by subst he; exact absurd hcc (by decide)
  simp [h2, h3, h4]

/-- Fragment stripping followed by `strip()` does not change the normalized
host of a URL made of printable non-whitespace characters. -/
theorem normNetloc_clean_of_plain (u : String) (h : plainUrlStr u = true) :
    normNetloc (pyStripS (takeFragS u)) = normNetloc u := by
  have hall : ∀ c ∈ u.data, 32 < c.toNat ∧ isPyWs c = false := by
    intro c hc
    have hx := List.all_eq_true.mp h c hc
    simp only [Bool.and_eq_true] at hx
    exact ⟨by simpa using hx.1, by simpa using hx.2⟩
  have hfrag : ∀ c ∈ takeFragL u.data, 32 < c.toNat ∧ isPyWs c = false :=
    fun c hc => hall c ((List.takeWhile_sublist _).subset hc)
  have hdata : (pyStripS (takeFragS u)).data = takeFragL u.data := by
    show pyStripL (takeFragL u.data) = takeFragL u.data
    exact pyStripL_of_plain _ (fun c hc => (hfrag c hc).2)
  unfold normNetloc urlNetlocL
  rw [hdata]
  rw [urlPrep_of_plain _ (fun c hc => (hfrag c hc).1)]
  rw [urlPrep_of_plain _ (fun c hc => (hall c hc).1)]
  rw [netlocRaw_dropScheme_takeFrag]

theorem pyStripS_of_plain (s : String) (h : plainUrlStr s = true) :
    pyStripS s = s := by
  obtain ⟨d⟩ := s
  show String.mk (pyStripL d) = String.mk d
  rw [pyStripL_of_plain]
  intro c hc
  have hx := List.all_eq_true.mp h c hc
  simp only [Bool.and_eq_true] at hx
  simpa using hx.2

theorem filterSameSiteUrls_spec (urls : List String) (homeUrl : String) :
    (filterSameSiteUrls urls homeUrl).Nodup ∧
    ∀ v ∈ filterSameSiteUrls urls homeUrl,
      ∃ u ∈ urls, normNetloc u = normNetloc homeUrl ∧ v = pyStripS (takeFragS u) := by
  unfold filterSameSiteUrls
  refine ⟨dedupKeepOrder_nodup _, fun v hv => ?_⟩
  have hm := dedupKeepOrder_subset _ v hv
  obtain ⟨u, hu, he⟩ := List.mem_filterMap.mp hm
  by_cases hc : normNetloc u == normNetloc homeUrl
  · rw [if_pos hc] at he
    exact ⟨u, hu, by simpa using hc, (Option.some.inj he).symm⟩
  · rw [if_neg hc] at he
    exact absurd he (by simp)

theorem filterSameSiteUrls_host (urls : List String) (homeUrl : String)
    (hplain : ∀ u ∈ urls, plainUrlStr u = true) :
    ∀ v ∈ filterSameSiteUrls urls homeUrl, normNetloc v = normNetloc homeUrl := by
  intro v hv
  obtain ⟨u, hu, hhost, he⟩ := (filterSameSiteUrls_spec urls homeUrl).2 v hv
  rw [he, normNetloc_clean_of_plain u (hplain u hu)]
  exact hhost

theorem locsOf_plain (raws : List String)
    (h : ∀ r ∈ raws, plainUrlStr r = true) :
    ∀ u ∈ locsOf raws, plainUrlStr u = true := by
  intro u hu
  unfold locsOf at hu
  obtain ⟨r, hr, he⟩ := List.mem_map.mp hu
  have hrr : r ∈ raws := List.mem_of_mem_filter hr
  rw [← he, pyStripS_of_plain r (h r hrr)]
  exact h r hrr

theorem smStep_found_host (env : SitemapEnv) (homeUrl : String)
    (henv : ∀ sm tag raws, env sm = some (tag, raws) →
      ∀ r ∈ raws, plainUrlStr r = true)
    (s : SmState) (hf : ∀ v ∈ s.found, normNetloc v = normNetloc homeUrl) :
    ∀ v ∈ (smStep env homeUrl s).found, normNetloc v = normNetloc homeUrl := by
  unfold smStep
  rcases hq : s.toVisit with _ | ⟨sm, rest⟩
  · exact hf
  · by_cases hm : sm ∈ s.seen
    · simp only [hm, if_true]
      exact hf
    · simp only [hm, if_false]
      rcases he : env sm with _ | ⟨tag, raws⟩
      · exact hf
      · dsimp only
        split
        · exact hf
        · split
          · exact hf
          · intro v hv
            rcases List.mem_append.mp hv with h | h
            · exact hf v h
            · exact filterSameSiteUrls_host _ _
                (locsOf_plain raws (henv sm tag raws he)) v h

theorem smLoop_found_host (env : SitemapEnv) (homeUrl : String)
    (visitLimit : Nat)
    (henv : ∀ sm tag raws, env sm = some (tag, raws) →
      ∀ r ∈ raws, plainUrlStr r = true) :
    ∀ fuel : Nat, ∀ s : SmState,
    (∀ v ∈ s.found, normNetloc v = normNetloc homeUrl) →
    ∀ v ∈ (smLoop env homeUrl visitLimit fuel s).found,
      normNetloc v = normNetloc homeUrl := by
  intro fuel
  induction fuel with
  | zero => intro s hf; exact hf
  | succ n ih =>
    intro s hf
    rw [smLoop]
    split
    · exact hf
    · exact ih _ (smStep_found_host env homeUrl henv s hf)

theorem smEnvOfTable_plain (t : List (String × (String × List String)))
    (h : ∀ e ∈ t, ∀ r ∈ e.2.2, plainUrlStr r = true) :
    ∀ sm tag raws, smEnvOfTable t sm = some (tag, raws) →
      ∀ r ∈ raws, plainUrlStr r = true := by
  intro sm tag raws he r hr
  unfold smEnvOfTable at he
  obtain ⟨p, hp, he2⟩ := Option.map_eq_some'.mp he
  refine h p (List.mem_of_find?_eq_some hp) r ?_
  rw [show p.2.2 = raws from congrArg Prod.snd he2]
  exact hr

/-! ### C6: sitemap resolver output -/

/-- C6, counterexample: with home URL `https://h #x` (normalized host
`"h "`, which contains a space) and a sitemap `<loc>` `https://h #y` on
that same host, the resolver returns `https://h`, whose normalized host
`"h"` differs from the home URL's — fragment stripping plus trimming has
changed the host, so the returned list is not same-host as claimed. -/
theorem sitemap_resolver_host_change_cx :
    collectUrlsFromSitemaps (smEnvOfTable smTableWsHostA) "https://h #x"
      (candidateSitemapUrls "https://h #x" []) 30000 50 = ["https://h"] ∧
    normNetloc "https://h #x" = "h " ∧
    normNetloc "https://h" = "h" ∧
    sameHost "https://h" "https://h #x" = false := by
  refine ⟨by decide, by decide, by decide, by decide⟩

/-- C6, amended: for every home URL and environment whose `<loc>` entries
consist of printable non-whitespace characters (so that fragment stripping
and trimming cannot alter a host), the resolver's output is duplicate-free
and every returned URL is same-host with the home URL; and on the two-level
sitemap index scenario (two child urlsets of 3 unique entries each, one URL
shared) it returns exactly the 5 unique URLs in first-discovery order. -/
theorem sitemap_resolver_nodup_same_host (env : SitemapEnv)
    (homeUrl : String) (cands : List String) (visitLimit fuel : Nat)
    (henv : ∀ sm tag raws, env sm = some (tag, raws) →
      ∀ r ∈ raws, plainUrlStr r = true) :
    (collectUrlsFromSitemaps env homeUrl cands visitLimit fuel).Nodup ∧
    (∀ v ∈ collectUrlsFromSitemaps env homeUrl cands visitLimit fuel,
      normNetloc v = normNetloc homeUrl ∧ sameHost v homeUrl = true) ∧
    collectUrlsFromSitemaps (smEnvOfTable smTableTwoLevel) "https://ex.com"
      (candidateSitemapUrls "https://ex.com" []) 30000 50 =
      ["https://ex.com/p1", "https://ex.com/p2", "https://ex.com/p3",
       "https://ex.com/p4", "https://ex.com/p5"] := by
  refine ⟨dedupKeepOrder_nodup _, fun v hv => ?_, by decide⟩
  have hm := dedupKeepOrder_subset _ v hv
  have hh := smLoop_found_host env homeUrl visitLimit henv fuel
    ⟨cands, [], []⟩ (by intro v hv; simp at hv) v hm
  refine ⟨hh, ?_⟩
  unfold sameHost
  rw [hh]
  simp

/-- Witness for `sitemap_resolver_nodup_same_host` on the concrete
two-level scenario, with the printable-characters hypothesis discharged. -/
theorem sitemap_resolver_nodup_same_host_witness :
    (collectUrlsFromSitemaps (smEnvOfTable smTableTwoLevel) "https://ex.com"
      (candidateSitemapUrls "https://ex.com" []) 30000 50).Nodup ∧
    collectUrlsFromSitemaps (smEnvOfTable smTableTwoLevel) "https://ex.com"
      (candidateSitemapUrls "https://ex.com" []) 30000 50 =
      ["https://ex.com/p1", "https://ex.com/p2", "https://ex.com/p3",
       "https://ex.com/p4", "https://ex.com/p5"] := by
  have h := sitemap_resolver_nodup_same_host (smEnvOfTable smTableTwoLevel)
    "https://ex.com" (candidateSitemapUrls "https://ex.com" []) 30000 50
    (smEnvOfTable_plain smTableTwoLevel (by decide))
  exact ⟨h.1, h.2.2⟩

/-! ### C9: index children are enqueued with no host check -/

theorem smStep_index_enqueue (env : SitemapEnv) (homeUrl : String) (s : SmState)
    (sm : String) (rest : List String) (tag : String) (raws : List String)
    (hq : s.toVisit = sm :: rest) (hm : sm ∉ s.seen)
    (he : env sm = some (tag, raws)) (hl : ¬ locsOf raws = [])
    (ht : tagNorm tag = "sitemapindex") :
    (smStep env homeUrl s).toVisit =
      rest ++ (locsOf raws).filter (fun c => c ∉ sm :: s.seen) ∧
    (smStep env homeUrl s).seen = sm :: s.seen ∧
    (smStep env homeUrl s).found = s.found := by
  unfold smStep
  rw [hq]
  simp only [hm, if_false, he]
  rw [if_neg hl, if_pos ht]
  exact ⟨rfl, rfl, rfl⟩

/-- C9, counterexample: the whitespace-host corner also defeats the claim's
final clause for the resolver output — with home URL `https://bx #h`
(normalized host `"bx "`) and `<loc>` `https://bx #k`, the returned URL
`https://bx` has normalized host `"bx"`, different from the home URL's. -/
theorem foreign_sitemap_host_change_cx :
    collectUrlsFromSitemaps (smEnvOfTable smTableWsHostB) "https://bx #h"
      (candidateSitemapUrls "https://bx #h" []) 30000 50 = ["https://bx"] ∧
    normNetloc "https://bx #h" = "bx " ∧
    normNetloc "https://bx" = "bx" := by
  refine ⟨by decide, by decide, by decide⟩

/-- C9, amended: a `sitemapindex` document has every one of its `<loc>`
children enqueued after a check against the seen set only — no same-host
test — so foreign-host sitemaps are fetched and traversed (in the concrete
scenario a child on `evil.org` is fetched and its same-host page URL
reaches the output); and the same-host filter applied to urlset locs
guarantees that, for environments whose `<loc>` entries consist of
printable non-whitespace characters, every returned URL has normalized
host equal to the home URL's. -/
theorem sitemap_index_no_host_check (env : SitemapEnv) (homeUrl : String)
    (cands : List String) (visitLimit fuel : Nat)
    (henv : ∀ sm tag raws, env sm = some (tag, raws) →
      ∀ r ∈ raws, plainUrlStr r = true) :
    (∀ s : SmState, ∀ sm : String, ∀ rest : List String, ∀ tag : String,
      ∀ raws : List String, s.toVisit = sm :: rest → sm ∉ s.seen →
      env sm = some (tag, raws) → ¬ locsOf raws = [] →
      tagNorm tag = "sitemapindex" →
      (smStep env homeUrl s).toVisit =
        rest ++ (locsOf raws).filter (fun c => c ∉ sm :: s.seen)) ∧
    collectUrlsFromSitemaps (smEnvOfTable smTableForeign) "https://ex.com"
      (candidateSitemapUrls "https://ex.com" []) 30000 50 =
      ["https://ex.com/found-via-foreign"] ∧
    (∀ v ∈ collectUrlsFromSitemaps env homeUrl cands visitLimit fuel,
      normNetloc v = normNetloc homeUrl) := by
  refine ⟨?_, by decide, ?_⟩
  · intro s sm rest tag raws hq hm he hl ht
    exact (smStep_index_enqueue env homeUrl s sm rest tag raws hq hm he hl ht).1
  · intro v hv
    have hm := dedupKeepOrder_subset _ v hv
    exact smLoop_found_host env homeUrl visitLimit henv fuel
      ⟨cands, [], []⟩ (by intro v hv; simp at hv) v hm

/-- Witness for `sitemap_index_no_host_check`: the foreign-host child is
enqueued verbatim from the index and its urlset content reaches the
resolver output. -/
theorem sitemap_index_no_host_check_witness :
    (smStep (smEnvOfTable smTableForeign) "https://ex.com"
      ⟨["https://ex.com/sitemap.xml"], [], []⟩).toVisit =
      ["https://evil.org/foreign.xml"] ∧
    collectUrlsFromSitemaps (smEnvOfTable smTableForeign) "https://ex.com"
      (candidateSitemapUrls "https://ex.com" []) 30000 50 =
      ["https://ex.com/found-via-foreign"] := by
  have h := sitemap_index_no_host_check (smEnvOfTable smTableForeign)
    "https://ex.com" (candidateSitemapUrls "https://ex.com" []) 30000 50
    (smEnvOfTable_plain smTableForeign (by decide))
  constructor
  · have h1 := h.1 ⟨["https://ex.com/sitemap.xml"], [], []⟩
      "https://ex.com/sitemap.xml" [] "sitemapindex"
      ["https://evil.org/foreign.xml"] rfl (by decide) (by decide) (by decide)
      (by decide)
    rw [h1]
    decide
  · exact h.2.1

/-! ### C7: discovery orchestration -/

theorem charListLe_total : ∀ a b : List Char,
    charListLe a b = true ∨ charListLe b a = true := by
  intro a
  induction a with
  | nil => intro b; left; rfl
  | cons x xs ih =>
    intro b
    cases b with
    | nil => right; rfl
    | cons y ys =>
      unfold charListLe
      by_cases h1 : x.toNat < y.toNat
      · left; rw [if_pos h1]
      · by_cases h2 : y.toNat < x.toNat
        · right; rw [if_pos h2]
        · rw [if_neg h1, if_neg h2, if_neg h2, if_neg h1]
          exact ih ys

theorem charListLe_trans : ∀ a b c : List Char, charListLe a b = true →
    charListLe b c = true → charListLe a c = true := by
  intro a
  induction a with
  | nil => intro b c _ _; rfl
  | cons x xs ih =>
    intro b c hab hbc
    cases b with
    | nil => simp [charListLe] at hab
    | cons y ys =>
      cases c with
      | nil => simp [charListLe] at hbc
      | cons z zs =>
        unfold charListLe at hab hbc ⊢
        by_cases h1 : x.toNat < y.toNat
        · by_cases h2 : y.toNat < z.toNat
          · rw [if_pos (by omega)]
          · rw [if_neg h2] at hbc
            by_cases h3 : z.toNat < y.toNat
            · rw [if_pos h3] at hbc; exact absurd hbc (by simp)
            · rw [if_pos (by omega)]
        · rw [if_neg h1] at hab
          by_cases h4 : y.toNat < x.toNat
          · rw [if_pos h4] at hab; exact absurd hab (by simp)
          · rw [if_neg h4] at hab
            by_cases h2 : y.toNat < z.toNat
            · rw [if_pos (by omega)]
            · rw [if_neg h2] at hbc
              by_cases h3 : z.toNat < y.toNat
              · rw [if_pos h3] at hbc; exact absurd hbc (by simp)
              · rw [if_neg h3] at hbc
                rw [if_neg (by omega), if_neg (by omega)]
                exact ih ys zs hab hbc

theorem strLe_total (a b : String) : strLe a b = true ∨ strLe b a = true :=
  charListLe_total a.data b.data

theorem strLe_trans (a b c : String) (hab : strLe a b = true)
    (hbc : strLe b c = true) : strLe a c = true :=
  charListLe_trans a.data b.data c.data hab hbc

theorem insertSorted_perm (x : String) (l : List String) :
    (insertSorted x l).Perm (x :: l) := by
  induction l with
  | nil => exact List.Perm.refl _
  | cons y ys ih =>
    unfold insertSorted
    split
    · exact List.Perm.refl _
    · exact (List.Perm.cons y ih).trans (List.Perm.swap x y ys)

theorem sortStrings_perm (l : List String) : (sortStrings l).Perm l := by
  induction l with
  | nil => exact List.Perm.refl _
  | cons x xs ih =>
    exact (insertSorted_perm x (sortStrings xs)).trans (List.Perm.cons x ih)

theorem insertSorted_pairwise (x : String) (l : List String)
    (h : l.Pairwise (fun a b => strLe a b = true)) :
    (insertSorted x l).Pairwise (fun a b => strLe a b = true) := by
  induction l with
  | nil => simp [insertSorted]
  | cons y ys ih =>
    unfold insertSorted
    by_cases hxy : strLe x y = true
    · rw [if_pos hxy]
      refine List.pairwise_cons.mpr ⟨?_, h⟩
      intro z hz
      rcases List.mem_cons.mp hz with he | he
      · exact he ▸ hxy
      · exact strLe_trans x y z hxy ((List.pairwise_cons.mp h).1 z he)
    · rw [if_neg hxy]
      have hyx : strLe y x = true := by
        rcases strLe_total x y with hc | hc
        · exact absurd hc hxy
        · exact hc
      refine List.pairwise_cons.mpr ⟨?_, ih (List.pairwise_cons.mp h).2⟩
      intro z hz
      have hz2 : z ∈ x :: ys := (insertSorted_perm x ys).mem_iff.mp hz
      rcases List.mem_cons.mp hz2 with he | he
      · exact he ▸ hyx
      · exact (List.pairwise_cons.mp h).1 z he

theorem sortStrings_pairwise (l : List String) :
    (sortStrings l).Pairwise (fun a b => strLe a b = true) := by
  induction l with
  | nil => simp [sortStrings]
  | cons x xs ih => exact insertSorted_pairwise x (sortStrings xs) ih

theorem fbEnqueue_inv (links visited : List String) :
    ∀ queue : List String, queue.Nodup → (∀ u ∈ queue, u ∉ visited) →
    (fbEnqueue links visited queue).Nodup ∧
    (∀ u ∈ fbEnqueue links visited queue, u ∉ visited) := by
  induction links with
  | nil => intro q h1 h2; exact ⟨h1, h2⟩
  | cons l ls ih =>
    intro q h1 h2
    rw [fbEnqueue]
    by_cases hm : l ∉ visited ∧ l ∉ q
    · have hc : (decide (l ∉ visited) && decide (l ∉ q)) = true := by
        simp [hm.1, hm.2]
      rw [hc]
      simp only [if_true]
      refine ih (q ++ [l]) ?_ ?_
      · simp [List.nodup_append, h1, hm.2]
      · intro u hu
        rcases List.mem_append.mp hu with h | h
        · exact h2 u h
        · rw [List.mem_singleton.mp h]; exact hm.1
    · have hc : (decide (l ∉ visited) && decide (l ∉ q)) = false := by
        rcases Decidable.not_and_iff_or_not.mp hm with h | h <;> simp [h]
      rw [hc]
      simp only [Bool.false_eq_true, if_false]
      exact ih q h1 h2

theorem fbStep_inv (gl : String → List (String × String)) (s : FbState)
    (h1 : s.queue.Nodup) (h2 : ∀ u ∈ s.queue, u ∉ s.visited)
    (h3 : s.visited.Nodup) :
    (fbStep gl s).queue.Nodup ∧
    (∀ u ∈ (fbStep gl s).queue, u ∉ (fbStep gl s).visited) ∧
    (fbStep gl s).visited.Nodup := by
  unfold fbStep
  rcases hq : s.queue with _ | ⟨url, rest⟩
  · exact ⟨by rw [hq] at h1 ⊢; exact h1, by rw [hq] at h2 ⊢; exact h2, h3⟩
  · rw [hq] at h1 h2
    by_cases hmem : url ∈ s.visited
    · simp only [hmem, if_true]
      exact ⟨(List.nodup_cons.mp h1).2,
        fun u hu => h2 u (List.mem_cons_of_mem _ hu), h3⟩
    · simp only [hmem, if_false]
      have hrest1 : rest.Nodup := (List.nodup_cons.mp h1).2
      have hrest2 : ∀ u ∈ rest, u ∉ url :: s.visited := by
        intro u hu
        rw [List.mem_cons]
        push_neg
        exact ⟨fun he => (List.nodup_cons.mp h1).1 (he ▸ hu),
          h2 u (List.mem_cons_of_mem _ hu)⟩
      obtain ⟨ha, hb⟩ := fbEnqueue_inv ((gl url).map Prod.fst)
        (url :: s.visited) rest hrest1 hrest2
      exact ⟨ha, hb, List.nodup_cons.mpr ⟨hmem, h3⟩⟩

theorem fbRun_visited_nodup (gl : String → List (String × String))
    (maxPages : Nat) : ∀ s : FbState, s.queue.Nodup →
    (∀ u ∈ s.queue, u ∉ s.visited) → s.visited.Nodup →
    (fbRun gl maxPages s).visited.Nodup := by
  intro s
  induction s using fbRun.induct gl maxPages with
  | case1 s hs =>
    intro _ _ h3
    rw [fbRun, hs]
    simpa using h3
  | case2 s hs ih =>
    intro h1 h2 h3
    have hf : fbHalted maxPages s = false := by simpa using hs
    rw [fbRun, hf]
    simp only [Bool.false_eq_true, if_false]
    obtain ⟨ha, hb, hc⟩ := fbStep_inv gl s h1 h2 h3
    exact ih ha hb hc

theorem fbRun_halted_eq (gl : String → List (String × String)) (maxPages : Nat)
    (s : FbState) (h : fbHalted maxPages s = true) : fbRun gl maxPages s = s := by
  rw [fbRun, h]
  simp

theorem fbRun_unfold_eq (gl : String → List (String × String)) (maxPages : Nat)
    (s : FbState) (h : fbHalted maxPages s = false) :
    fbRun gl maxPages s = fbRun gl maxPages (fbStep gl s) := by
  rw [fbRun, h]
  simp

theorem filterSameSiteUrls_of_fixed (urls : List String) (homeUrl : String)
    (h : ∀ u ∈ urls, pyStripS (takeFragS u) = u) (hnd : urls.Nodup) :
    filterSameSiteUrls urls homeUrl =
      urls.filter (fun u => normNetloc u == normNetloc homeUrl) := by
  have hfm : ∀ us : List String, (∀ u ∈ us, pyStripS (takeFragS u) = u) →
      us.filterMap (fun u =>
        if normNetloc u == normNetloc homeUrl then some (pyStripS (takeFragS u))
        else none) =
      us.filter (fun u => normNetloc u == normNetloc homeUrl) := by
    intro us hus
    induction us with
    | nil => rfl
    | cons u us ih =>
      rw [List.filterMap_cons, List.filter_cons]
      by_cases hc : (normNetloc u == normNetloc homeUrl) = true
      · rw [hc, if_pos rfl]
        simp only [if_true]
        rw [hus u (List.mem_cons_self u us)]
        rw [ih (fun x hx => hus x (List.mem_cons_of_mem _ hx))]
      · have hc2 : (normNetloc u == normNetloc homeUrl) = false := by
          simpa using hc
        rw [hc2]
        simp only [Bool.false_eq_true, if_false]
        rw [ih (fun x hx => hus x (List.mem_cons_of_mem _ hx))]
  show dedupKeepOrder (urls.filterMap (fun u =>
      if normNetloc u == normNetloc homeUrl then some (pyStripS (takeFragS u))
      else none)) = _
  rw [hfm urls h]
  exact dedupFrom_eq_self _ [] (List.Nodup.filter _ hnd) (by simp)

/-- C7, counterexample: with home URL `https://h/p#frag` and no reachable
pages, the fallback visits exactly that URL, but the returned list is
`["https://h/p"]` — the same-site filter also strips the fragment, so the
result is *not* the visited set filtered to same-host URLs (which would be
`["https://h/p#frag"]`, also what sorting it lexicographically yields). -/
theorem find_all_fallback_cleaning_cx :
    findAllInternalUrls smNoneEnv fetchNoneEnv anchorsNoneEnv [] 50
      "https://h/p#frag" 500 = ["https://h/p"] ∧
    (fbRun (getInternalLinks fetchNoneEnv anchorsNoneEnv) 500
      ⟨[rstripSlashS (pyStripS "https://h/p#frag")], []⟩).visited =
      ["https://h/p#frag"] ∧
    sortStrings ((["https://h/p#frag"] : List String).filter
      (fun u => sameHost u "https://h/p#frag")) = ["https://h/p#frag"] ∧
    ("https://h/p" : String) ≠ "https://h/p#frag" := by
  have hfb : fbRun (getInternalLinks fetchNoneEnv anchorsNoneEnv) 500
      ⟨[rstripSlashS (pyStripS "https://h/p#frag")], []⟩ =
      ⟨[], ["https://h/p#frag"]⟩ := by
    rw [fbRun_unfold_eq _ _ _ (by decide)]
    rw [show fbStep (getInternalLinks fetchNoneEnv anchorsNoneEnv)
        ⟨[rstripSlashS (pyStripS "https://h/p#frag")], []⟩ =
        ⟨[], ["https://h/p#frag"]⟩ from by decide]
    exact fbRun_halted_eq _ _ _ (by decide)
  refine ⟨?_, by rw [hfb], by decide, by decide⟩
  unfold findAllInternalUrls
  rw [if_neg (by decide), if_neg (by decide)]
  rw [hfb]
  decide

/-- C7, amended: `find_all_internal_urls` returns the sitemap pipeline's
result unchanged whenever it is non-empty and falls back to the
unrestricted crawl only when it is empty; the fallback's return value is
the same-site filter — which fragment-strips, trims and de-duplicates —
applied to the lexicographically sorted visited set; the overall result is
always duplicate-free, and it is sorted whenever cleaning leaves every
visited URL unchanged (the counterexample's fragment-carrying home URL
violates that proviso). -/
theorem find_all_orchestration (smEnv : SitemapEnv) (fetch : FetchEnv)
    (anchors : AnchorEnv) (robotsListed : List String) (fuel : Nat)
    (homeUrl : String) (maxPages : Nat) :
    (pyStripS homeUrl ≠ "" →
      collectUrlsFromSitemaps smEnv (pyStripS homeUrl)
        (candidateSitemapUrls (pyStripS homeUrl) robotsListed) 30000 fuel ≠ [] →
      findAllInternalUrls smEnv fetch anchors robotsListed fuel homeUrl maxPages =
        collectUrlsFromSitemaps smEnv (pyStripS homeUrl)
          (candidateSitemapUrls (pyStripS homeUrl) robotsListed) 30000 fuel) ∧
    (pyStripS homeUrl ≠ "" →
      collectUrlsFromSitemaps smEnv (pyStripS homeUrl)
        (candidateSitemapUrls (pyStripS homeUrl) robotsListed) 30000 fuel = [] →
      findAllInternalUrls smEnv fetch anchors robotsListed fuel homeUrl maxPages =
        filterSameSiteUrls (sortStrings
          (fbRun (getInternalLinks fetch anchors) maxPages
            ⟨[rstripSlashS (pyStripS homeUrl)], []⟩).visited)
          (pyStripS homeUrl)) ∧
    (findAllInternalUrls smEnv fetch anchors robotsListed fuel homeUrl
      maxPages).Nodup ∧
    (collectUrlsFromSitemaps smEnv (pyStripS homeUrl)
        (candidateSitemapUrls (pyStripS homeUrl) robotsListed) 30000 fuel = [] →
      (∀ u ∈ (fbRun (getInternalLinks fetch anchors) maxPages
          ⟨[rstripSlashS (pyStripS homeUrl)], []⟩).visited,
        pyStripS (takeFragS u) = u) →
      (findAllInternalUrls smEnv fetch anchors robotsListed fuel homeUrl
        maxPages).Pairwise (fun a b => strLe a b = true)) := by
  have hfall : pyStripS homeUrl ≠ "" →
      collectUrlsFromSitemaps smEnv (pyStripS homeUrl)
        (candidateSitemapUrls (pyStripS homeUrl) robotsListed) 30000 fuel = [] →
      findAllInternalUrls smEnv fetch anchors robotsListed fuel homeUrl maxPages =
        filterSameSiteUrls (sortStrings
          (fbRun (getInternalLinks fetch anchors) maxPages
            ⟨[rstripSlashS (pyStripS homeUrl)], []⟩).visited)
          (pyStripS homeUrl) := by
    intro h0 h1
    unfold findAllInternalUrls
    rw [if_neg h0, if_neg (fun hc => hc h1)]
  refine ⟨?_, hfall, ?_, ?_⟩
  · intro h0 h1
    unfold findAllInternalUrls
    rw [if_neg h0, if_pos h1]
  · unfold findAllInternalUrls
    split
    · simp
    · split
      · unfold collectUrlsFromSitemaps
        exact dedupKeepOrder_nodup _
      · exact (filterSameSiteUrls_spec _ _).1
  · intro h1 h2
    by_cases h0 : pyStripS homeUrl = ""
    · unfold findAllInternalUrls
      rw [if_pos h0]
      simp
    · rw [hfall h0 h1]
      have hvnd : (fbRun (getInternalLinks fetch anchors) maxPages
          ⟨[rstripSlashS (pyStripS homeUrl)], []⟩).visited.Nodup :=
        fbRun_visited_nodup _ _ _ (by simp) (by simp) (by simp)
      have hsnd : (sortStrings (fbRun (getInternalLinks fetch anchors) maxPages
          ⟨[rstripSlashS (pyStripS homeUrl)], []⟩).visited).Nodup :=
        ((sortStrings_perm _).nodup_iff).mpr hvnd
      have h2' : ∀ u ∈ sortStrings (fbRun (getInternalLinks fetch anchors)
          maxPages ⟨[rstripSlashS (pyStripS homeUrl)], []⟩).visited,
          pyStripS (takeFragS u) = u :=
        fun u hu => h2 u ((sortStrings_perm _).subset hu)
      rw [filterSameSiteUrls_of_fixed _ _ h2' hsnd]
      exact List.Pairwise.sublist (List.filter_sublist _) (sortStrings_pairwise _)

/-- Witness for `find_all_orchestration`: a sitemap-backed home URL returns
the resolver output untouched, and a sitemap-less home URL returns the
sorted, same-site-filtered visited set of the fallback crawl. -/
theorem find_all_orchestration_witness :
    findAllInternalUrls (smEnvOfTable smTableTwoLevel) fetchNoneEnv anchorsNoneEnv
      [] 50 "https://ex.com" 500 =
      ["https://ex.com/p1", "https://ex.com/p2", "https://ex.com/p3",
       "https://ex.com/p4", "https://ex.com/p5"] ∧
    findAllInternalUrls smNoneEnv fetchC5 anchorsC5 [] 10 "https://c5.com" 300 =
      ["https://c5.com", "https://c5.com/empty", "https://c5.com/fail",
       "https://c5.com/s500"] ∧
    (findAllInternalUrls smNoneEnv fetchC5 anchorsC5 [] 10 "https://c5.com"
      300).Pairwise (fun a b => strLe a b = true) := by
  have hfb : fbRun (getInternalLinks fetchC5 anchorsC5) 300
      ⟨[rstripSlashS (pyStripS "https://c5.com")], []⟩ =
      ⟨[], ["https://c5.com/empty", "https://c5.com/s500", "https://c5.com/fail",
            "https://c5.com"]⟩ := by
    rw [fbRun_unfold_eq _ _ _ (by decide)]
    rw [show fbStep (getInternalLinks fetchC5 anchorsC5)
        ⟨[rstripSlashS (pyStripS "https://c5.com")], []⟩ =
        ⟨["https://c5.com/fail", "https://c5.com/s500", "https://c5.com/empty"],
         ["https://c5.com"]⟩ from by decide]
    rw [fbRun_unfold_eq _ _ _ (by decide)]
    rw [show fbStep (getInternalLinks fetchC5 anchorsC5)
        ⟨["https://c5.com/fail", "https://c5.com/s500", "https://c5.com/empty"],
         ["https://c5.com"]⟩ =
        ⟨["https://c5.com/s500", "https://c5.com/empty"],
         ["https://c5.com/fail", "https://c5.com"]⟩ from by decide]
    rw [fbRun_unfold_eq _ _ _ (by decide)]
    rw [show fbStep (getInternalLinks fetchC5 anchorsC5)
        ⟨["https://c5.com/s500", "https://c5.com/empty"],
         ["https://c5.com/fail", "https://c5.com"]⟩ =
        ⟨["https://c5.com/empty"],
         ["https://c5.com/s500", "https://c5.com/fail", "https://c5.com"]⟩
        from by decide]
    rw [fbRun_unfold_eq _ _ _ (by decide)]
    rw [show fbStep (getInternalLinks fetchC5 anchorsC5)
        ⟨["https://c5.com/empty"],
         ["https://c5.com/s500", "https://c5.com/fail", "https://c5.com"]⟩ =
        ⟨[], ["https://c5.com/empty", "https://c5.com/s500", "https://c5.com/fail",
              "https://c5.com"]⟩ from by decide]
    exact fbRun_halted_eq _ _ _ (by decide)
  refine ⟨?_, ?_, ?_⟩
  · rw [(find_all_orchestration (smEnvOfTable smTableTwoLevel) fetchNoneEnv
      anchorsNoneEnv [] 50 "https://ex.com" 500).1 (by decide) (by decide)]
    decide
  · rw [(find_all_orchestration smNoneEnv fetchC5 anchorsC5 [] 10 "https://c5.com"
      300).2.1 (by decide) (by decide)]
    rw [hfb]
    decide
  · refine (find_all_orchestration smNoneEnv fetchC5 anchorsC5 [] 10 "https://c5.com"
      300).2.2.2 (by decide) ?_
    intro u hu
    rw [hfb] at hu
    simp only [List.mem_cons, List.not_mem_nil, or_false] at hu
    rcases hu with h | h | h | h <;> rw [h] <;> decide

/-! ### C8: one bucket per distinct normalized target -/

/-- C8: the Link-Match Engine's result has exactly one bucket per distinct
normalized target — its keys are the order-preserving de-duplication of the
trimmed, trailing-slash-stripped targets, hence duplicate-free; every
normalized target owns the bucket holding exactly its matches; a target no
crawled page links to is present with an empty (not missing) bucket; and
the two slash-variant operator inputs `https://site/x` and
`https://site/x/` collapse into one single bucket. -/
theorem matches_by_target_buckets (pieces : List String)
    (crawled : List (String × List (String × String))) :
    ((matchesByTarget (parseTargetUrls pieces) crawled).map Prod.fst).Nodup ∧
    (matchesByTarget (parseTargetUrls pieces) crawled).map Prod.fst =
      targetsSetOf (parseTargetUrls pieces) ∧
    (∀ t ∈ targetsSetOf (parseTargetUrls pieces),
      (t, bucketFor t crawled) ∈ matchesByTarget (parseTargetUrls pieces) crawled) ∧
    (∀ t ∈ targetsSetOf (parseTargetUrls pieces),
      (∀ pl ∈ crawled, ∀ la ∈ pl.2, rstripSlashS la.1 ≠ t) →
      (t, []) ∈ matchesByTarget (parseTargetUrls pieces) crawled) ∧
    matchesByTarget (parseTargetUrls ["https://site/x", "https://site/x/"])
      crawled = [("https://site/x", bucketFor "https://site/x" crawled)] := by
  have hkeys : (matchesByTarget (parseTargetUrls pieces) crawled).map Prod.fst =
      targetsSetOf (parseTargetUrls pieces) := by
    unfold matchesByTarget
    rw [List.map_map]
    exact List.map_id _
  have hmem : ∀ t ∈ targetsSetOf (parseTargetUrls pieces),
      (t, bucketFor t crawled) ∈ matchesByTarget (parseTargetUrls pieces) crawled := by
    intro t ht
    unfold matchesByTarget
    exact List.mem_map.mpr ⟨t, ht, rfl⟩
  refine ⟨?_, hkeys, hmem, ?_, ?_⟩
  · rw [hkeys]
    exact dedupKeepOrder_nodup _
  · intro t ht hno
    have hb : bucketFor t crawled = [] := by
      unfold bucketFor
      rw [List.flatMap_eq_nil_iff]
      intro pl hpl
      rw [List.map_eq_nil_iff, List.filter_eq_nil_iff]
      intro la hla
      simp only [beq_iff_eq]
      exact hno pl hpl la hla
    have := hmem t ht
    rw [hb] at this
    exact this
  · unfold matchesByTarget
    rw [show targetsSetOf (parseTargetUrls ["https://site/x", "https://site/x/"]) =
      ["https://site/x"] from by decide]
    rfl

/-- Witness for `matches_by_target_buckets`: three operator inputs, two of
which are slash variants, yield two buckets — one filled, one empty. -/
theorem matches_by_target_buckets_witness :
    (matchesByTarget (parseTargetUrls
      ["https://site/x", "https://site/x/", "https://site/y"])
      [("https://site/a", [("https://site/x/", "go")])]).map Prod.fst =
      ["https://site/x", "https://site/y"] ∧
    ("https://site/x", [("https://site/a", "go")]) ∈
      matchesByTarget (parseTargetUrls
        ["https://site/x", "https://site/x/", "https://site/y"])
        [("https://site/a", [("https://site/x/", "go")])] ∧
    ("https://site/y", []) ∈
      matchesByTarget (parseTargetUrls
        ["https://site/x", "https://site/x/", "https://site/y"])
        [("https://site/a", [("https://site/x/", "go")])] := by
  have h := matches_by_target_buckets
    ["https://site/x", "https://site/x/", "https://site/y"]
    [("https://site/a", [("https://site/x/", "go")])]
  refine ⟨?_, ?_, ?_⟩
  · rw [h.2.1]
    decide
  · have hx := h.2.2.1 "https://site/x" (by decide)
    rw [show bucketFor "https://site/x"
      [("https://site/a", [("https://site/x/", "go")])] =
      [("https://site/a", "go")] from by decide] at hx
    exact hx
  · exact h.2.2.2.1 "https://site/y" (by decide) (by decide)
